import Mathlib

/-!
# SimpleSectorClone: raw sector-aligned copying between a file and a block device

A shallow embedding of the copy engine (diskio.cpp, copyAlignedWithPadding), of the
Unix device enumerator (diskio.cpp, enumerate) and of the interactive driver
(main.cpp, logicExec, ceilTo, floorTo), followed by theorems about them.

Conventions of the embedding.

* qint64 values are integers (Int); the places where the C++ code narrows to a
  32-bit int are modelled by toInt32, and the 64-bit arithmetic of ceilTo and floorTo
  by wrap64.
* A QFile used as a source is a state machine: read takes the requested count and
  returns either a failure (a negative count) or the bytes it delivered.
* A QFile used as a destination is a state machine: write is offered a chunk and
  returns a count; a positive count wr means the first wr offered bytes were appended.
* Every call on a file is recorded in an event trace, from which the bytes that
  reached the destination are computed (written).
* Loops that the C++ code runs with while are given fuel; none means the fuel ran
  out, which is how a run that never ends shows in the model.
* Progress output (text, elapsed time, floating-point throughput) is left out.
-/

namespace SectorClone

/-! ## The copy engine: data model -/

/-- One byte of a file, a device or a buffer. -/
abbrev Byte := Fin 256

/-- Result of QFile::read(char*, qint64): a failure, or the bytes delivered. -/
inductive ReadResult where
  | failed
  | got (bytes : List Byte)
  deriving DecidableEq, Repr

/-- The count returned by QFile::read: negative on failure, else the number of bytes delivered. -/
def ReadResult.rd : ReadResult → Int
  | .failed => -1
  | .got bytes => (bytes.length : Int)

/-- The bytes a read delivered (none when it failed). -/
def ReadResult.bytes : ReadResult → List Byte
  | .failed => []
  | .got bytes => bytes

/-- A source file: read st want gives the result of the read and the next state. -/
structure Source (σ : Type) where
  read : σ → Int → ReadResult × σ

/-- A destination file: write st chunk gives the returned count and the next state;
flushToDisk gives whether the durable sync succeeded. -/
structure Dest (δ : Type) where
  write : δ → List Byte → Int × δ
  flushToDisk : δ → Bool

/-- The calls the engine makes on its two files, in the order it makes them. -/
inductive Event where
  | read (want rd : Int)
  | write (offered : List Byte) (wr : Int)
  | flush (ok : Bool)
  deriving DecidableEq, Repr

/-- Bytes one event appends to the destination: a write that returned wr > 0 appends
the first wr bytes it was offered. -/
def Event.appended : Event → List Byte
  | .write offered wr => offered.take wr.toNat
  | _ => []

/-- All bytes a trace appended to the destination, in order. -/
def written : List Event → List Byte
  | [] => []
  | e :: es => e.appended ++ written es

/-- Whether an event is a source read that returned a negative count. -/
def Event.isReadError : Event → Bool
  | .read _ rd => decide (rd < 0)
  | _ => false

/-- Whether an event is a destination write that returned a count <= 0. -/
def Event.isWriteError : Event → Bool
  | .write _ wr => decide (wr ≤ 0)
  | _ => false

/-- Whether an event is a call of flushToDisk. -/
def Event.isFlush : Event → Bool
  | .flush _ => true
  | _ => false

/-- The C++ conversion int(x) of a qint64 on a two's-complement machine. -/
def toInt32 (x : Int) : Int :=
  let r := x % 4294967296
  if r < 2147483648 then r else r - 4294967296

/-- The value of buf.size() after buf.resize(int(blockSize)): QByteArray::resize
treats a negative size as 0. -/
def bufferSize (blockSize : Int) : Int :=
  max 0 (toInt32 blockSize)

/-- The buffer right after resize: n bytes whose contents are unspecified (junk). -/
def freshBuffer (junk : List Byte) (n : Nat) : List Byte :=
  (junk ++ List.replicate n 0).take n

/-- Effect of src.read(buf.data(), want) on the buffer: the delivered bytes land at its start. -/
def store (buf bytes : List Byte) : List Byte :=
  bytes ++ buf.drop bytes.length

/-- The call std::memset(buf.data() + start, 0, len). -/
def memset (buf : List Byte) (start len : Nat) : List Byte :=
  buf.take start ++ List.replicate len 0 ++ buf.drop (start + len)

/-- The pointer/length pair (buf.constData() + off, len) handed to dst.write. -/
def slice (buf : List Byte) (off len : Int) : List Byte :=
  (buf.drop off.toNat).take len.toNat

/-- The loop-carried variables of copyAlignedWithPadding, with the trace so far. -/
structure CopyState (σ δ : Type) where
  src : σ
  dst : δ
  buf : List Byte
  done : Int
  trace : List Event

/-- How one pass through the body of the outer while loop ends. -/
inductive Step (σ δ : Type) where
  | next (st : CopyState σ δ)
  | leave (st : CopyState σ δ)
  | abort (st : CopyState σ δ)

/-- What a call of copyAlignedWithPadding leaves behind. -/
structure Outcome (σ δ : Type) where
  ok : Bool
  src : σ
  dst : δ
  done : Int
  trace : List Event

/-! ## The copy engine: code -/

/-- The inner loop, common to the three write sites:
while (off < n) { wr = dst.write(buf+off, n-off); if (wr <= 0) return false; off += wr; }
The result is (false, ..) when a write returned wr <= 0, (true, ..) when off reached n. -/
def writeLoop {δ : Type} (D : Dest δ) (buf : List Byte) (n : Int) :
    Nat → Int → δ → Option (Bool × δ × List Event)
  | 0, off, dst => if off < n then none else some (true, dst, [])
  | fuel + 1, off, dst =>
    if off < n then
      let chunk := slice buf off (n - off)
      let r := D.write dst chunk
      if r.1 ≤ 0 then some (false, r.2, [Event.write chunk r.1])
      else
        match writeLoop D buf n fuel (off + r.1) r.2 with
        | none => none
        | some (ok, dst2, evs) => some (ok, dst2, Event.write chunk r.1 :: evs)
    else some (true, dst, [])

/-- After a write loop over buffer b for n bytes: return false on a write error, else
done += inc and go round the outer loop again. -/
def afterWrites {σ δ : Type} (D : Dest δ) (st : CopyState σ δ) (src2 : σ) (ev : Event)
    (b : List Byte) (n inc : Int) : Option (Step σ δ) :=
  match writeLoop D b n n.toNat 0 st.dst with
  | none => none
  | some (false, dst2, evs) =>
    some (.abort { src := src2, dst := dst2, buf := b, done := st.done,
                   trace := st.trace ++ ev :: evs })
  | some (true, dst2, evs) =>
    some (.next { src := src2, dst := dst2, buf := b, done := st.done + inc,
                  trace := st.trace ++ ev :: evs })

/-- One pass through the body of while (done < totalTarget), entered with done < totalTarget. -/
def iteration {σ δ : Type} (S : Source σ) (D : Dest δ) (bufSize totalTarget : Int)
    (padUp : Bool) (st : CopyState σ δ) : Option (Step σ δ) :=
  let remaining := totalTarget - st.done
  let want := min bufSize remaining
  let r := S.read st.src want
  let rd := r.1.rd
  let buf1 := store st.buf r.1.bytes
  let ev := Event.read want rd
  if rd < 0 then
    some (.abort { st with src := r.2, trace := st.trace ++ [ev] })
  else if rd = 0 then
    if padUp then
      afterWrites D st r.2 ev (memset buf1 0 (toInt32 want).toNat) want want
    else
      some (.leave { st with src := r.2, buf := buf1, trace := st.trace ++ [ev] })
  else
    if rd < want ∧ padUp then
      afterWrites D st r.2 ev (memset buf1 rd.toNat (toInt32 (want - rd)).toNat) want want
    else
      afterWrites D st r.2 ev buf1 rd rd

/-- The outer loop while (done < totalTarget) { body }; leave means the loop was left
(condition false, or break), abort means the function returned false from inside. -/
def copyLoop {σ δ : Type} (S : Source σ) (D : Dest δ) (bufSize totalTarget : Int)
    (padUp : Bool) : Nat → CopyState σ δ → Option (Step σ δ)
  | 0, st => if st.done < totalTarget then none else some (.leave st)
  | fuel + 1, st =>
    if st.done < totalTarget then
      match iteration S D bufSize totalTarget padUp st with
      | none => none
      | some (.next st2) => copyLoop S D bufSize totalTarget padUp fuel st2
      | some (.leave st2) => some (.leave st2)
      | some (.abort st2) => some (.abort st2)
    else some (.leave st)

/-- The variables at the top of copyAlignedWithPadding, before the loop. -/
def initialState {σ δ : Type} (src : σ) (dst : δ) (junk : List Byte) (blockSize : Int) :
    CopyState σ δ :=
  { src := src, dst := dst, buf := freshBuffer junk (bufferSize blockSize).toNat,
    done := 0, trace := [] }

/-- The function DiskIO::copyAlignedWithPadding(src, dst, totalTarget, blockSize,
sectorAlign, padUp, out, err). sectorAlign is accepted and not used, as in the code. -/
def copyAlignedWithPadding {σ δ : Type} (fuel : Nat) (S : Source σ) (D : Dest δ)
    (src : σ) (dst : δ) (junk : List Byte)
    (totalTarget blockSize sectorAlign : Int) (padUp : Bool) : Option (Outcome σ δ) :=
  match copyLoop S D (bufferSize blockSize) totalTarget padUp fuel
      (initialState src dst junk blockSize) with
  | none => none
  | some (.abort st) =>
    some { ok := false, src := st.src, dst := st.dst, done := st.done, trace := st.trace }
  | some (.next st) | some (.leave st) =>
    let flushed := D.flushToDisk st.dst
    some { ok := true, src := st.src, dst := st.dst, done := st.done,
           trace := st.trace ++ [Event.flush flushed] }

/-! ## Concrete files used to exercise the engine -/

/-- A regular file being read: the bytes not yet delivered, and a schedule that caps
the size of each coming read (no entry left: deliver all that is asked for). -/
structure FileSrc where
  rest : List Byte
  sched : List Nat
  deriving DecidableEq, Repr

/-- Number of bytes the next read of a FileSrc delivers when asked for want. -/
def FileSrc.count (f : FileSrc) (want : Int) : Nat :=
  match f.sched with
  | [] => min want.toNat f.rest.length
  | k :: _ => min (max 1 k) (min want.toNat f.rest.length)

/-- Reads of a FileSrc never fail; they deliver between 1 and want bytes while bytes
are left and 0 afterwards. -/
def fileSource : Source FileSrc where
  read f want :=
    (.got (f.rest.take (f.count want)),
     { rest := f.rest.drop (f.count want), sched := f.sched.tail })

/-- A regular file whose every read returns min(want, bytes left) bytes; its state is
the list of bytes not yet delivered. -/
def plainSource : Source (List Byte) where
  read rest want := (.got (rest.take want.toNat), rest.drop want.toNat)

/-- A destination that accepts at most chunk bytes per write while budget allows,
and fails every write once budget bytes have been accepted; its state is the number
of bytes accepted so far. flushToDisk reports flushOk. -/
def cappedDest (chunk budget : Nat) (flushOk : Bool) : Dest Nat where
  write acc offered :=
    if acc < budget then
      let k := min (max 1 chunk) (min offered.length (budget - acc))
      ((k : Int), acc + k)
    else (-1, acc)
  flushToDisk _ := flushOk

/-- A destination that accepts at most chunk bytes (and at least one) on every write
and never fails; its state is the number of bytes accepted so far. -/
def steadyDest (chunk : Nat) (flushOk : Bool) : Dest Nat where
  write acc offered :=
    let k := min (max 1 chunk) offered.length
    ((k : Int), acc + k)
  flushToDisk _ := flushOk

/-! ## Vocabulary of the statements about the engine -/

/-- The state a step ends in. -/
def Step.state {σ δ : Type} : Step σ δ → CopyState σ δ
  | .next st => st
  | .leave st => st
  | .abort st => st

/-- Every write of D that is offered at least one byte accepts between 1 and the
offered number of bytes. -/
def Accepting {δ : Type} (D : Dest δ) : Prop :=
  ∀ (d : δ) (bs : List Byte), bs ≠ [] →
    1 ≤ (D.write d bs).1 ∧ (D.write d bs).1 ≤ (bs.length : Int)

/-- The source S holds the finite byte sequence content st and hands it out in order:
a read asking for want > 0 bytes never fails, delivers a prefix of what is left of at
most want bytes, delivers at least one byte while bytes are left (hence 0 bytes only
once exhausted), and what is left afterwards is the rest. -/
def Chunked {σ : Type} (S : Source σ) (content : σ → List Byte) : Prop :=
  ∀ (st : σ) (want : Int), 0 < want →
    ∃ bs, (S.read st want).1 = .got bs ∧ bs <+: content st ∧ (bs.length : Int) ≤ want ∧
      (content st ≠ [] → bs ≠ []) ∧ content (S.read st want).2 = (content st).drop bs.length

/-- Every read of S returns min(want, bytes left) bytes: the next want bytes of
content st, or all that is left when fewer are left. -/
def FullReads {σ : Type} (S : Source σ) (content : σ → List Byte) : Prop :=
  ∀ (st : σ) (want : Int), 0 < want →
    (S.read st want).1 = .got ((content st).take want.toNat) ∧
      content (S.read st want).2 = (content st).drop want.toNat

/-- A read of S that delivers fewer bytes than asked for delivers all that is left. -/
def ShortOnlyAtEnd {σ : Type} (S : Source σ) (content : σ → List Byte) : Prop :=
  ∀ (st : σ) (want : Int) (bs : List Byte), 0 < want →
    (S.read st want).1 = .got bs → (bs.length : Int) < want → bs = content st

/-- No read of S returns more than the requested count. -/
def ReadsWithinWant {σ : Type} (S : Source σ) : Prop :=
  ∀ (st : σ) (want : Int), 0 ≤ want → (S.read st want).1.rd ≤ want

/-- The loop state at the end of the n-th pass through the body of the outer loop,
when the loop runs that many passes (none when it has been left or returned from). -/
def stateAfter {σ δ : Type} (S : Source σ) (D : Dest δ) (bufSize totalTarget : Int)
    (padUp : Bool) : Nat → CopyState σ δ → Option (CopyState σ δ)
  | 0, st => some st
  | n + 1, st =>
    match stateAfter S D bufSize totalTarget padUp n st with
    | none => none
    | some st1 =>
      if st1.done < totalTarget then
        match iteration S D bufSize totalTarget padUp st1 with
        | some (.next st2) => some st2
        | _ => none
      else none

/-- No event of the trace is a failed read or a failed write. -/
def ErrorFree (tr : List Event) : Prop :=
  ∀ e ∈ tr, e.isReadError = false ∧ e.isWriteError = false

/-- Some event of the trace is a read that returned a negative count or a write that
returned a count <= 0. -/
def HasError (tr : List Event) : Prop :=
  ∃ e ∈ tr, e.isReadError = true ∨ e.isWriteError = true

/-- No event of the trace is a call of flushToDisk. -/
def FlushFree (tr : List Event) : Prop :=
  ∀ e ∈ tr, e.isFlush = false

/-! ## The Unix device enumerator -/

/-- A QString (or the text of a QByteArray), as its sequence of characters. -/
abbrev QString := List Char

/-- The struct DiskInfo of diskio.h. -/
structure DiskInfo where
  path : QString
  model : QString
  size : Nat
  removable : Bool
  logicalSector : Nat
  physicalSector : Nat
  deriving DecidableEq, Repr

/-- Diagnostics written to the err stream; each stands for one message of the program. -/
inductive Diag where
  | noDisks
  | badIndex
  | badMode
  | badBlockSize
  | badOffset
  | badLimit
  | offsetMisaligned (sector devOffset : Int)
  | blockMisaligned (sector blockSize : Int)
  | inputNotFound
  | cannotOpenInput
  | cannotOpenDevice
  | seekFailed
  | noOutputPath
  | cannotOpenOutput
  | limitBelowSector
  deriving DecidableEq, Repr

/-- What the Unix host and the Qt library answer to enumerate.
isBlockDevice p: stat(p) succeeded and S_ISBLK holds.
readAllTrimmed p: none when QFile::open(ReadOnly) fails on p, else readAll().trimmed().
toULongLong t: the value of QByteArray::toULongLong(&ok), none when ok is false.
toUInt t: the value of QByteArray::toUInt(), which is 0 when the conversion fails. -/
structure SysEnv where
  isBlockDevice : QString → Bool
  readAllTrimmed : QString → Option QString
  toULongLong : QString → Option Nat
  toUInt : QString → Nat

/-- The helper readFileULongLong(path): 0 when the file cannot be opened or parsed. -/
def readFileULongLong (env : SysEnv) (path : QString) : Nat :=
  match env.readAllTrimmed path with
  | none => 0
  | some s =>
    match env.toULongLong s with
    | some v => v
    | none => 0

/-- The test name.startsWith("loop") || name.startsWith("ram") || name.startsWith("sr"). -/
def isExcludedName (name : QString) : Bool :=
  "loop".toList.isPrefixOf name || "ram".toList.isPrefixOf name || "sr".toList.isPrefixOf name

/-- The path "/dev/" + name. -/
def devPathOf (name : QString) : QString :=
  "/dev/".toList ++ name

/-- The path "/sys/block/" + name + attr. -/
def sysAttr (name : QString) (attr : String) : QString :=
  "/sys/block/".toList ++ name ++ attr.toList

/-- The body of the for loop of enumerate for one /sys/block entry: none where the code
says continue, else the descriptor pushed onto out. -/
def probeEntry (env : SysEnv) (name : QString) : Option DiskInfo :=
  if isExcludedName name then none
  else
    let devPath := devPathOf name
    if !env.isBlockDevice devPath then none
    else
      let sectors := readFileULongLong env (sysAttr name "/size")
      let size := (sectors * 512) % 18446744073709551616
      let removable := readFileULongLong env (sysAttr name "/removable") == 1
      let model0 : QString :=
        match env.readAllTrimmed (sysAttr name "/device/model") with
        | some m => m
        | none => []
      let model := if model0.isEmpty then "Unknown".toList else model0
      let logSz :=
        match env.readAllTrimmed (sysAttr name "/queue/logical_block_size") with
        | some t => env.toUInt t
        | none => 512
      let phySz :=
        match env.readAllTrimmed (sysAttr name "/queue/physical_block_size") with
        | some t => env.toUInt t
        | none => 512
      let logicalSector := if logSz ≠ 0 then logSz else 512
      some { path := devPath, model := model, size := size, removable := removable,
             logicalSector := logicalSector,
             physicalSector := if phySz ≠ 0 then phySz else logicalSector }

/-- The function DiskIO::enumerate(err) on the Unix backend, given the listing of
/sys/block: the descriptors, and what was written to err. -/
def enumerate (env : SysEnv) (entries : List QString) : List DiskInfo × List Diag :=
  let out := entries.filterMap (probeEntry env)
  (out, if out.isEmpty then [Diag.noDisks] else [])

/-- A plain decimal reader standing in for Qt's number parsing in examples. -/
def readDecimal (t : QString) : Option Nat :=
  if t.isEmpty || !t.all Char.isDigit then none
  else some (t.foldl (fun acc c => 10 * acc + (c.toNat - 48)) 0)

/-- An example host with one disk sda whose sysfs reports a logical block size of 4096
and an empty physical_block_size file, and nothing else readable. -/
def sampleEnv : SysEnv where
  isBlockDevice _ := true
  readAllTrimmed p :=
    if p = "/sys/block/sda/queue/logical_block_size".toList then some "4096".toList
    else if p = "/sys/block/sda/queue/physical_block_size".toList then some []
    else none
  toULongLong := readDecimal
  toUInt t := (readDecimal t).getD 0

/-! ## The interactive driver (main.cpp) -/

/-- The 64-bit two's-complement value of an integer expression of type qint64. -/
def wrap64 (x : Int) : Int :=
  let r := x % 18446744073709551616
  if r < 9223372036854775808 then r else r - 18446744073709551616

/-- The function ceilTo(v, a) = (a>0)? ((v + a - 1) / a) * a : v, over qint64. -/
def ceilTo (v a : Int) : Int :=
  if a > 0 then wrap64 ((wrap64 (v + a - 1)).tdiv a * a) else v

/-- The function floorTo(v, a) = (a>0)? (v - (v % a)) : v, over qint64. -/
def floorTo (v a : Int) : Int :=
  if a > 0 then wrap64 (v - v.tmod a) else v

/-- A line typed where a number is expected, after trimmed(): nothing, text that Qt
parses to a number in range, or text that it does not parse. -/
inductive NumLine where
  | empty
  | number (v : Int)
  | garbage
  deriving DecidableEq, Repr

/-- The value and the ok flag of toInt(&ok) / toLongLong(&ok). -/
def NumLine.parse : NumLine → Int × Bool
  | .number v => (v, true)
  | _ => (0, false)

/-- The test QString::isEmpty on a typed line. -/
def NumLine.isEmpty : NumLine → Bool
  | .empty => true
  | _ => false

/-- The pattern x = line.isEmpty() ? dflt : line.toLongLong(&ok): the value of x and of
the flag ok afterwards, ok being left as it was when the line is empty. -/
def NumLine.orDefault (line : NumLine) (dflt : Int) (ok : Bool) : Int × Bool :=
  match line with
  | .empty => (dflt, ok)
  | .number v => (v, true)
  | .garbage => (0, false)

/-- Calls logicExec makes on files and devices, in order. -/
inductive Call where
  | openInput
  | openWrite (path : QString)
  | openRead (path : QString)
  | seek (devOffset : Int)
  | openOutput
  | copy (totalTarget blockSize sectorAlign : Int) (padUp : Bool)
  deriving DecidableEq, Repr

/-- Everything the outside world supplies to one run of logicExec. -/
structure Session where
  host : SysEnv
  entries : List QString
  idxLine : NumLine
  mode : QString
  bsLine : NumLine
  offLine : NumLine
  limLine : NumLine
  filePath : QString
  fileExists : Bool
  conf : QString
  inputOpens : Bool
  deviceOpens : Bool
  seekOk : Bool
  outputOpens : Bool
  srcSize : Int
  copyOk : Bool

/-- What a run of logicExec leaves: its return value, the calls it made, and err. -/
structure Result where
  code : Int
  calls : List Call
  err : List Diag
  deriving DecidableEq, Repr

/-- The values logicExec holds once all prompts of lines 16-61 are answered validly. -/
structure Params where
  target : DiskInfo
  isWrite : Bool
  blockSize : Int
  devOffset : Int
  limit : Int
  deriving DecidableEq, Repr

/-- Outcome of the prompts: an early return, or the validated values. -/
inductive Asked where
  | exit (r : Result)
  | params (p : Params)
  deriving DecidableEq, Repr

/-- Lines 16-61 of logicExec: enumerate, then the prompts for the disk index, the mode,
the block size, the device offset and the limit, each with its validation. -/
def askParams (s : Session) : Asked :=
  let found := enumerate s.host s.entries
  let disks := found.1
  if disks.isEmpty then .exit ⟨1, [], found.2⟩
  else
    let i := s.idxLine.parse
    let idx := i.1
    let ok := i.2
    if !ok || idx < 0 || idx ≥ (disks.length : Int) then .exit ⟨1, [], [Diag.badIndex]⟩
    else
      match disks.get? idx.toNat with
      | none => .exit ⟨1, [], [Diag.badIndex]⟩
      | some target =>
        if s.mode.isEmpty || (s.mode ≠ "w".toList && s.mode ≠ "r".toList
            && s.mode ≠ "write".toList && s.mode ≠ "read".toList) then
          .exit ⟨1, [], [Diag.badMode]⟩
        else
          let isWrite := s.mode = "w".toList || s.mode = "write".toList
          let b := s.bsLine.orDefault 1048576 ok
          let blockSize : Int := b.1
          let ok := b.2
          if !ok || blockSize ≤ 0 then .exit ⟨1, [], [Diag.badBlockSize]⟩
          else
            let o := s.offLine.orDefault 0 ok
            let devOffset : Int := o.1
            let ok := o.2
            if !ok || devOffset < 0 then .exit ⟨1, [], [Diag.badOffset]⟩
            else
              let l := s.limLine.orDefault (-1) ok
              let limit : Int := l.1
              let ok := l.2
              if !s.limLine.isEmpty && (!ok || limit ≤ 0) then .exit ⟨1, [], [Diag.badLimit]⟩
              else .params ⟨target, isWrite, blockSize, devOffset, limit⟩

/-- The value sector = std::max<qint64>(target.logicalSector, 512) of line 63. -/
def sectorOf (target : DiskInfo) : Int :=
  max (target.logicalSector : Int) 512

/-- Lines 107-110: targetBytes from the source size, the limit and the sector. -/
def writeTargetBytes (srcSize limit sector : Int) : Int :=
  let base := if limit < 0 then srcSize else min limit srcSize
  let targetBytes := ceilTo base sector
  if targetBytes = 0 then sector else targetBytes

/-- Lines 74-113: the write branch. -/
def runWrite (s : Session) (p : Params) (sector : Int) : Result :=
  if s.filePath.isEmpty || !s.fileExists then ⟨1, [], [Diag.inputNotFound]⟩
  else if s.conf ≠ "yes".toList then ⟨0, [], []⟩
  else if !s.inputOpens then ⟨1, [Call.openInput], [Diag.cannotOpenInput]⟩
  else if !s.deviceOpens then
    ⟨1, [Call.openInput, Call.openWrite p.target.path], [Diag.cannotOpenDevice]⟩
  else
    let opened := [Call.openInput, Call.openWrite p.target.path]
    let seeks := if p.devOffset > 0 then [Call.seek p.devOffset] else []
    if p.devOffset > 0 && !s.seekOk then ⟨1, opened ++ seeks, [Diag.seekFailed]⟩
    else
      let targetBytes := writeTargetBytes s.srcSize p.limit sector
      ⟨if s.copyOk then 0 else 2,
       opened ++ seeks ++ [Call.copy targetBytes p.blockSize sector true], []⟩

/-- Lines 116-156: the read branch. -/
def runRead (s : Session) (p : Params) (sector : Int) : Result :=
  if s.filePath.isEmpty then ⟨1, [], [Diag.noOutputPath]⟩
  else if s.conf ≠ "yes".toList then ⟨0, [], []⟩
  else if !s.deviceOpens then ⟨1, [Call.openRead p.target.path], [Diag.cannotOpenDevice]⟩
  else
    let opened := [Call.openRead p.target.path]
    let seeks := if p.devOffset > 0 then [Call.seek p.devOffset] else []
    if p.devOffset > 0 && !s.seekOk then ⟨1, opened ++ seeks, [Diag.seekFailed]⟩
    else if !s.outputOpens then
      ⟨1, opened ++ seeks ++ [Call.openOutput], [Diag.cannotOpenOutput]⟩
    else
      let toRead := if p.limit > 0 then floorTo p.limit sector else p.limit
      if p.limit > 0 && toRead = 0 then
        ⟨1, opened ++ seeks ++ [Call.openOutput], [Diag.limitBelowSector]⟩
      else
        let total := if toRead > 0 then toRead else 9223372036854775807
        ⟨if s.copyOk then 0 else 2,
         opened ++ seeks ++ [Call.openOutput, Call.copy total p.blockSize sector false], []⟩

/-- Lines 63-157: the two alignment checks, then the chosen branch. -/
def checkAndRun (s : Session) (p : Params) : Result :=
  let sector := sectorOf p.target
  if p.devOffset.tmod sector ≠ 0 then ⟨1, [], [Diag.offsetMisaligned sector p.devOffset]⟩
  else if p.blockSize.tmod sector ≠ 0 then ⟨1, [], [Diag.blockMisaligned sector p.blockSize]⟩
  else if p.isWrite then runWrite s p sector
  else runRead s p sector

/-- The function logicExec() of main.cpp. -/
def logicExec (s : Session) : Result :=
  match askParams s with
  | .exit r => r
  | .params p => checkAndRun s p

/-- An example host with block devices but no readable sysfs attribute at all. -/
def bareEnv : SysEnv where
  isBlockDevice _ := true
  readAllTrimmed _ := none
  toULongLong := readDecimal
  toUInt t := (readDecimal t).getD 0

/-- An example run on the given host: first disk found, write mode, default block size,
the given device offset, no limit, a 1000-byte image, everything opens. -/
def sampleSession (host : SysEnv) (offLine : NumLine) : Session where
  host := host
  entries := ["loop0".toList, "sda".toList, "sr0".toList]
  idxLine := .number 0
  mode := "w".toList
  bsLine := .empty
  offLine := offLine
  limLine := .empty
  filePath := "image.bin".toList
  fileExists := true
  conf := "yes".toList
  inputOpens := true
  deviceOpens := true
  seekOk := true
  outputOpens := true
  srcSize := 1000
  copyOk := true

/-- The read branch gets as far as line 149: the alignment checks pass, an output path
is given, the operator confirms, the device opens, the seek (made only for a positive
offset) succeeds and the output file opens. -/
def ReachesReadTarget (s : Session) (p : Params) : Prop :=
  p.devOffset.tmod (sectorOf p.target) = 0 ∧ p.blockSize.tmod (sectorOf p.target) = 0 ∧
  p.isWrite = false ∧ s.filePath.isEmpty = false ∧ s.conf = "yes".toList ∧
  s.deviceOpens = true ∧ (p.devOffset > 0 → s.seekOk = true) ∧ s.outputOpens = true

/-- An example run on the given host with the given mode, block size line and limit
line: first disk found, offset 0, the operator confirms, everything opens. -/
def sampleRun (host : SysEnv) (mode : String) (bsLine limLine : NumLine) : Session where
  host := host
  entries := ["sda".toList]
  idxLine := .number 0
  mode := mode.toList
  bsLine := bsLine
  offLine := .empty
  limLine := limLine
  filePath := "image.bin".toList
  fileExists := true
  conf := "yes".toList
  inputOpens := true
  deviceOpens := true
  seekOk := true
  outputOpens := true
  srcSize := 1000
  copyOk := true

/-! ## Facts about the engine -/

theorem toInt32_of_range (x : Int) (h0 : 0 ≤ x) (h1 : x < 2147483648) : toInt32 x = x := by
  unfold toInt32
  simp only
  split <;> omega

theorem bufferSize_of_range (b : Int) (h0 : 0 ≤ b) (h1 : b < 2147483648) :
    bufferSize b = b := by
  unfold bufferSize
  rw [toInt32_of_range b h0 h1]
  omega

theorem bufferSize_nonneg (b : Int) : 0 ≤ bufferSize b := by
  unfold bufferSize
  omega

theorem length_freshBuffer (junk : List Byte) (n : Nat) : (freshBuffer junk n).length = n := by
  simp [freshBuffer]

theorem written_append (a b : List Event) : written (a ++ b) = written a ++ written b := by
  induction a with
  | nil => rfl
  | cons e es ih => simp [written, ih]

theorem length_store (buf bytes : List Byte) :
    buf.length ≤ (store buf bytes).length := by
  simp [store]
  omega

theorem length_memset (buf : List Byte) (start len : Nat) (h : start + len ≤ buf.length) :
    (memset buf start len).length = buf.length := by
  simp [memset]
  omega

theorem slice_split (buf : List Byte) (off m w : Int) (h0 : 0 ≤ off) (hw0 : 0 ≤ w)
    (hw : w ≤ m) :
    (slice buf off m).take w.toNat ++ slice buf (off + w) (m - w) = slice buf off m := by
  unfold slice
  have e1 : (off + w).toNat = off.toNat + w.toNat := by omega
  have e2 : m.toNat = w.toNat + (m - w).toNat := by omega
  rw [e1, List.take_take, ← List.drop_drop, e2, List.take_add]
  congr 1
  congr 1
  omega

theorem length_slice (buf : List Byte) (off m : Int) (h0 : 0 ≤ off)
    (h : off + m ≤ buf.length) (hm : 0 ≤ m) : ((slice buf off m).length : Int) = m := by
  unfold slice
  simp
  omega

/-- With an accepting destination the inner write loop completes and appends exactly the
n - off buffer bytes from off on. -/
theorem writeLoop_accepting {δ : Type} (D : Dest δ) (hD : Accepting D) (buf : List Byte)
    (n : Int) (hn : n ≤ buf.length) :
    ∀ (fuel : Nat) (off : Int) (dst : δ), 0 ≤ off → (n - off).toNat ≤ fuel →
      ∃ dst2 evs, writeLoop D buf n fuel off dst = some (true, dst2, evs) ∧
        written evs = slice buf off (n - off) ∧ ErrorFree evs ∧ FlushFree evs := by
  intro fuel
  induction fuel with
  | zero =>
    intro off dst h0 hf
    have hno : ¬ off < n := by omega
    refine ⟨dst, [], by simp [writeLoop, hno], ?_, by simp [ErrorFree], by simp [FlushFree]⟩
    have : (n - off).toNat = 0 := by omega
    simp [written, slice, this]
  | succ fuel ih =>
    intro off dst h0 hf
    by_cases hlt : off < n
    · have hlen := length_slice buf off (n - off) h0 (by omega) (by omega)
      have hne : slice buf off (n - off) ≠ [] := by
        intro hnil
        rw [hnil] at hlen
        simp at hlen
        omega
      obtain ⟨hw1, hw2⟩ := hD dst (slice buf off (n - off)) hne
      rw [hlen] at hw2
      obtain ⟨dst2, evs, hrun, hwr, hef, hff⟩ :=
        ih (off + (D.write dst (slice buf off (n - off))).1)
          (D.write dst (slice buf off (n - off))).2 (by omega) (by omega)
      have hnot : ¬ (D.write dst (slice buf off (n - off))).1 ≤ 0 := by omega
      refine ⟨dst2, Event.write (slice buf off (n - off))
          (D.write dst (slice buf off (n - off))).1 :: evs,
        by simp [writeLoop, hlt, hnot, hrun], ?_, ?_, ?_⟩
      · simp only [written, Event.appended]
        rw [hwr]
        have key := slice_split buf off (n - off) (D.write dst (slice buf off (n - off))).1 h0
          (by omega) hw2
        have e : n - (off + (D.write dst (slice buf off (n - off))).1)
            = n - off - (D.write dst (slice buf off (n - off))).1 := by ring
        rw [e]
        exact key
      · intro e he
        rcases List.mem_cons.mp he with rfl | he
        · simp only [Event.isReadError, Event.isWriteError, decide_eq_false_iff_not, true_and]
          exact hnot
        · exact hef e he
      · intro e he
        rcases List.mem_cons.mp he with rfl | he
        · simp [Event.isFlush]
        · exact hff e he
    · exact ⟨dst, [], by simp [writeLoop, hlt], by
        have : (n - off).toNat = 0 := by omega
        simp [written, slice, this], by simp [ErrorFree], by simp [FlushFree]⟩

theorem afterWrites_accepting {σ δ : Type} (D : Dest δ) (hD : Accepting D)
    (st : CopyState σ δ) (src2 : σ) (ev : Event) (b : List Byte) (n inc : Int)
    (hn0 : 0 ≤ n) (hn : n ≤ b.length) :
    ∃ dst2 evs, afterWrites D st src2 ev b n inc
        = some (.next { src := src2, dst := dst2, buf := b, done := st.done + inc,
                        trace := st.trace ++ ev :: evs }) ∧
      written evs = b.take n.toNat ∧ ErrorFree evs ∧ FlushFree evs := by
  obtain ⟨dst2, evs, hrun, hwr, hef, hff⟩ :=
    writeLoop_accepting D hD b n hn n.toNat 0 st.dst (le_refl 0) (by omega)
  refine ⟨dst2, evs, by simp [afterWrites, hrun], ?_, hef, hff⟩
  rw [hwr]
  simp [slice]

theorem take_append_zeros (c : List Byte) (k R : Nat) (h : k ≤ R) :
    (c ++ List.replicate R (0 : Byte)).take k
      = c.take k ++ List.replicate (k - c.length) 0 := by
  rw [List.take_append_eq_append_take, List.take_replicate]
  congr 2
  omega

theorem errorFree_read_cons (want rd : Int) (evs : List Event) (h : 0 ≤ rd)
    (he : ErrorFree evs) : ErrorFree (Event.read want rd :: evs) := by
  intro e hmem
  rcases List.mem_cons.mp hmem with rfl | hmem
  · simp only [Event.isReadError, Event.isWriteError, decide_eq_false_iff_not, and_true]
    omega
  · exact he e hmem

theorem flushFree_read_cons (want rd : Int) (evs : List Event)
    (he : FlushFree evs) : FlushFree (Event.read want rd :: evs) := by
  intro e hmem
  rcases List.mem_cons.mp hmem with rfl | hmem
  · rfl
  · exact he e hmem

/-- One pass of the loop body with padUp = true, a chunked source and an accepting
destination: the chunk read, padded with zeros to want bytes, is appended. -/
theorem iteration_pad {σ δ : Type} (S : Source σ) (D : Dest δ) (content : σ → List Byte)
    (hS : Chunked S content) (hD : Accepting D) (bufSize totalTarget : Int)
    (hb0 : 0 < bufSize) (hb1 : bufSize < 2147483648) (st : CopyState σ δ)
    (hdone : st.done < totalTarget) (hbuf : bufSize ≤ st.buf.length) :
    ∃ bs st2 evs, (S.read st.src (min bufSize (totalTarget - st.done))).1 = .got bs ∧
      bs <+: content st.src ∧
      (bs.length : Int) ≤ min bufSize (totalTarget - st.done) ∧
      (content st.src ≠ [] → bs ≠ []) ∧
      iteration S D bufSize totalTarget true st = some (.next st2) ∧
      st2.done = st.done + min bufSize (totalTarget - st.done) ∧
      st2.trace = st.trace ++ evs ∧
      written evs = bs ++ List.replicate
        ((min bufSize (totalTarget - st.done)).toNat - bs.length) 0 ∧
      content st2.src = (content st.src).drop bs.length ∧
      bufSize ≤ st2.buf.length ∧ ErrorFree evs ∧ FlushFree evs := by
  have hwant : 0 < min bufSize (totalTarget - st.done) := by omega
  generalize hw : min bufSize (totalTarget - st.done) = want at hwant
  have hwb : want ≤ bufSize := by omega
  obtain ⟨bs, hread, hpre, hlen, hne, hrest⟩ := hS st.src want hwant
  have hstore : st.buf.length ≤ (store st.buf bs).length := length_store st.buf bs
  by_cases h0 : bs = []
  · -- the read returned 0: the whole want-byte region is zero-filled
    subst h0
    have hm : (memset (store st.buf []) 0 (toInt32 want).toNat).length
        = (store st.buf []).length := by
      apply length_memset
      rw [toInt32_of_range want (by omega) (by omega)]
      omega
    obtain ⟨dst2, evs, hrun, hwr, hef, hff⟩ :=
      afterWrites_accepting D hD st (S.read st.src want).2 (Event.read want 0)
        (memset (store st.buf []) 0 (toInt32 want).toNat) want want (by omega)
        (by rw [hm]; omega)
    refine ⟨[], CopyState.mk (S.read st.src want).2 dst2
        (memset (store st.buf []) 0 (toInt32 want).toNat) (st.done + want)
        (st.trace ++ Event.read want 0 :: evs), Event.read want 0 :: evs, hread, hpre, hlen, hne, ?_, rfl, rfl, ?_, hrest,
      ?_, errorFree_read_cons _ _ _ (le_refl 0) hef, flushFree_read_cons _ _ _ hff⟩
    · simp only [iteration, hw, hread, ReadResult.rd, ReadResult.bytes]
      simpa using hrun
    · simp only [written, Event.appended, List.nil_append, hwr]
      rw [toInt32_of_range want (by omega) (by omega)]
      simp [memset]
    · show bufSize ≤ ((memset (store st.buf []) 0 (toInt32 want).toNat).length : Int)
      rw [hm]
      omega
  · have hpos : 0 < bs.length := List.length_pos.mpr h0
    have hrd0 : ¬ ((bs.length : Int) < 0) := by omega
    have hrd1 : ¬ ((bs.length : Int) = 0) := by omega
    by_cases hshort : (bs.length : Int) < want
    · -- a short read: bytes [rd, want) are zero-filled and want bytes written
      have hm : (memset (store st.buf bs) (bs.length : Int).toNat
          (toInt32 (want - bs.length)).toNat).length = (store st.buf bs).length := by
        apply length_memset
        rw [toInt32_of_range (want - bs.length) (by omega) (by omega)]
        omega
      obtain ⟨dst2, evs, hrun, hwr, hef, hff⟩ :=
        afterWrites_accepting D hD st (S.read st.src want).2 (Event.read want bs.length)
          (memset (store st.buf bs) (bs.length : Int).toNat
            (toInt32 (want - bs.length)).toNat) want want (by omega)
          (by rw [hm]; omega)
      refine ⟨bs, CopyState.mk (S.read st.src want).2 dst2
          (memset (store st.buf bs) (bs.length : Int).toNat
            (toInt32 (want - bs.length)).toNat) (st.done + want)
          (st.trace ++ Event.read want bs.length :: evs),
        Event.read want bs.length :: evs, hread, hpre, hlen, hne, ?_, rfl, rfl,
        ?_, hrest, ?_, errorFree_read_cons _ _ _ (by omega) hef, flushFree_read_cons _ _ _ hff⟩
      · simp only [iteration, hw, hread, ReadResult.rd, ReadResult.bytes]
        simp only [hrd0, hrd1, hshort, if_false, and_self, if_true]
        exact hrun
      · simp only [written, Event.appended, List.nil_append, hwr]
        rw [toInt32_of_range (want - bs.length) (by omega) (by omega)]
        have e1 : (want - (bs.length : Int)).toNat = want.toNat - bs.length := by omega
        have e2 : want.toNat = bs.length + (want.toNat - bs.length) := by omega
        simp only [memset, store, Int.toNat_ofNat, List.take_left, e1]
        rw [List.append_assoc]
        conv_lhs => rw [e2]
        rw [List.take_append]
        simp
      · show bufSize ≤ ((memset (store st.buf bs) (bs.length : Int).toNat
          (toInt32 (want - bs.length)).toNat).length : Int)
        rw [hm]
        omega
    · -- a full read: the rd bytes read are written
      have hfull : (bs.length : Int) = want := by omega
      obtain ⟨dst2, evs, hrun, hwr, hef, hff⟩ :=
        afterWrites_accepting D hD st (S.read st.src want).2 (Event.read want bs.length)
          (store st.buf bs) bs.length bs.length (by omega) (by simp [store])
      refine ⟨bs, CopyState.mk (S.read st.src want).2 dst2 (store st.buf bs)
          (st.done + bs.length) (st.trace ++ Event.read want bs.length :: evs),
        Event.read want bs.length :: evs, hread, hpre, hlen, hne, ?_, ?_, rfl,
        ?_, hrest, ?_, errorFree_read_cons _ _ _ (by omega) hef, flushFree_read_cons _ _ _ hff⟩
      · simp only [iteration, hw, hread, ReadResult.rd, ReadResult.bytes]
        simp only [hrd0, hrd1, hshort, if_false, false_and]
        exact hrun
      · show st.done + (bs.length : Int) = st.done + want
        omega
      · simp only [written, Event.appended, List.nil_append, hwr]
        have e1 : want.toNat - bs.length = 0 := by omega
        simp [store, e1]
      · show bufSize ≤ ((store st.buf bs).length : Int)
        omega

/-- One pass of the loop body with padUp = false, a chunked source and an accepting
destination: a read of 0 bytes leaves the loop, any other read appends exactly its bytes. -/
theorem iteration_nopad {σ δ : Type} (S : Source σ) (D : Dest δ) (content : σ → List Byte)
    (hS : Chunked S content) (hD : Accepting D) (bufSize totalTarget : Int)
    (hb0 : 0 < bufSize) (st : CopyState σ δ)
    (hdone : st.done < totalTarget) (hbuf : bufSize ≤ st.buf.length) :
    ∃ bs, bs <+: content st.src ∧
      (bs.length : Int) ≤ min bufSize (totalTarget - st.done) ∧
      (content st.src ≠ [] → bs ≠ []) ∧
      (bs = [] → ∃ st2 evs, iteration S D bufSize totalTarget false st = some (.leave st2) ∧
        st2.done = st.done ∧ st2.trace = st.trace ++ evs ∧ written evs = [] ∧
        ErrorFree evs ∧ FlushFree evs) ∧
      (bs ≠ [] → ∃ st2 evs, iteration S D bufSize totalTarget false st = some (.next st2) ∧
        st2.done = st.done + bs.length ∧ st2.trace = st.trace ++ evs ∧ written evs = bs ∧
        content st2.src = (content st.src).drop bs.length ∧
        bufSize ≤ st2.buf.length ∧ ErrorFree evs ∧ FlushFree evs) := by
  have hwant : 0 < min bufSize (totalTarget - st.done) := by omega
  generalize hw : min bufSize (totalTarget - st.done) = want at hwant
  obtain ⟨bs, hread, hpre, hlen, hne, hrest⟩ := hS st.src want hwant
  have hstore : st.buf.length ≤ (store st.buf bs).length := length_store st.buf bs
  refine ⟨bs, hpre, hlen, hne, ?_, ?_⟩
  · intro h0
    subst h0
    refine ⟨CopyState.mk (S.read st.src want).2 st.dst (store st.buf []) st.done
      (st.trace ++ [Event.read want 0]), [Event.read want 0], ?_, rfl, rfl, rfl,
      errorFree_read_cons _ _ _ (le_refl 0) (by simp [ErrorFree]),
      flushFree_read_cons _ _ _ (by simp [FlushFree])⟩
    simp [iteration, hw, hread, ReadResult.rd, ReadResult.bytes]
  · intro h0
    have hpos : 0 < bs.length := List.length_pos.mpr h0
    have hrd0 : ¬ ((bs.length : Int) < 0) := by omega
    have hrd1 : ¬ ((bs.length : Int) = 0) := by omega
    obtain ⟨dst2, evs, hrun, hwr, hef, hff⟩ :=
      afterWrites_accepting D hD st (S.read st.src want).2 (Event.read want bs.length)
        (store st.buf bs) bs.length bs.length (by omega) (by simp [store])
    refine ⟨CopyState.mk (S.read st.src want).2 dst2 (store st.buf bs)
        (st.done + bs.length) (st.trace ++ Event.read want bs.length :: evs),
      Event.read want bs.length :: evs, ?_, rfl, rfl, ?_, hrest, ?_,
      errorFree_read_cons _ _ _ (by omega) hef, flushFree_read_cons _ _ _ hff⟩
    · simp only [iteration, hw, hread, ReadResult.rd, ReadResult.bytes]
      simp only [hrd0, hrd1, if_false, Bool.false_eq_true, and_false]
      exact hrun
    · simp only [written, Event.appended, List.nil_append, hwr]
      simp [store]
    · show bufSize ≤ ((store st.buf bs).length : Int)
      omega

theorem errorFree_append (a b : List Event) (ha : ErrorFree a) (hb : ErrorFree b) :
    ErrorFree (a ++ b) := by
  intro e he
  rcases List.mem_append.mp he with h | h
  · exact ha e h
  · exact hb e h

theorem flushFree_append (a b : List Event) (ha : FlushFree a) (hb : FlushFree b) :
    FlushFree (a ++ b) := by
  intro e he
  rcases List.mem_append.mp he with h | h
  · exact ha e h
  · exact hb e h

/-- The whole loop with padUp = true: it is left with done = totalTarget after appending
what the source still holds followed by zeros, totalTarget - done bytes in all. -/
theorem copyLoop_pad {σ δ : Type} (S : Source σ) (D : Dest δ) (content : σ → List Byte)
    (hS : Chunked S content) (hE : ShortOnlyAtEnd S content) (hD : Accepting D)
    (bufSize totalTarget : Int) (hb0 : 0 < bufSize) (hb1 : bufSize < 2147483648) :
    ∀ (fuel : Nat) (st : CopyState σ δ), st.done ≤ totalTarget →
      bufSize ≤ st.buf.length → (totalTarget - st.done).toNat ≤ fuel →
      ∃ st2 evs, copyLoop S D bufSize totalTarget true fuel st = some (.leave st2) ∧
        st2.done = totalTarget ∧ st2.trace = st.trace ++ evs ∧
        ErrorFree evs ∧ FlushFree evs ∧
        written evs = (content st.src ++ List.replicate (totalTarget - st.done).toNat 0).take
          (totalTarget - st.done).toNat := by
  intro fuel
  induction fuel with
  | zero =>
    intro st hd _ hf
    have hno : ¬ st.done < totalTarget := by omega
    have hR : (totalTarget - st.done).toNat = 0 := by omega
    exact ⟨st, [], by simp [copyLoop, hno], by omega, by simp, by simp [ErrorFree],
      by simp [FlushFree], by simp [written, hR]⟩
  | succ fuel ih =>
    intro st hd hbuf hf
    by_cases hlt : st.done < totalTarget
    · obtain ⟨bs, st1, evs1, hread, hpre, hlen, hne, hit, hdone1, htr1, hwr1, hc1, hbuf1,
        hef1, hff1⟩ := iteration_pad S D content hS hD bufSize totalTarget hb0 hb1 st hlt hbuf
      obtain ⟨st2, evs2, hrun, hdone2, htr2, hef2, hff2, hwr2⟩ :=
        ih st1 (by omega) hbuf1 (by omega)
      refine ⟨st2, evs1 ++ evs2, by simp [copyLoop, hlt, hit, hrun], hdone2,
        by rw [htr2, htr1, List.append_assoc], errorFree_append _ _ hef1 hef2,
        flushFree_append _ _ hff1 hff2, ?_⟩
      rw [written_append, hwr1, hwr2, hc1, hdone1]
      generalize hw : min bufSize (totalTarget - st.done) = want at *
      have hwpos : 0 < want := by omega
      have hwR : want.toNat ≤ (totalTarget - st.done).toNat := by omega
      have hR1 : (totalTarget - (st.done + want)).toNat
          = (totalTarget - st.done).toNat - want.toNat := by omega
      obtain ⟨tl, htl⟩ := hpre
      rw [hR1, take_append_zeros _ _ _ (le_refl _), take_append_zeros _ _ _ (le_refl _), ← htl]
      by_cases hshort : (bs.length : Int) < want
      · have hall := hE st.src want bs hwpos hread hshort
        have htl0 : tl = [] := by
          have : (bs ++ tl).length = bs.length := by rw [htl, ← hall]
          simp at this
          exact this
        subst htl0
        simp only [List.append_nil, List.drop_length, List.take_nil, List.length_nil,
          Nat.sub_zero, List.nil_append]
        rw [List.take_of_length_le (by omega), List.append_assoc, ← List.replicate_add]
        congr 2
        omega
      · have hfull : bs.length = want.toNat := by omega
        have h1 : want.toNat - bs.length = 0 := by omega
        rw [h1]
        simp only [List.replicate_zero, List.append_nil, List.drop_left, List.length_append]
        have e : (totalTarget - st.done).toNat
            = bs.length + ((totalTarget - st.done).toNat - want.toNat) := by omega
        conv_rhs => rw [e, List.take_append]
        rw [List.append_assoc]
        congr 2
        rw [hfull]
        congr 1
        omega
    · have hR : (totalTarget - st.done).toNat = 0 := by omega
      exact ⟨st, [], by simp [copyLoop, hlt], by omega, by simp, by simp [ErrorFree],
        by simp [FlushFree], by simp [written, hR]⟩

/-- The whole loop with padUp = false: it is left after appending the next
min(bytes left, totalTarget - done) bytes of the source, and nothing else. -/
theorem copyLoop_nopad {σ δ : Type} (S : Source σ) (D : Dest δ) (content : σ → List Byte)
    (hS : Chunked S content) (hD : Accepting D)
    (bufSize totalTarget : Int) (hb0 : 0 < bufSize) :
    ∀ (fuel : Nat) (st : CopyState σ δ), st.done ≤ totalTarget →
      bufSize ≤ st.buf.length → (totalTarget - st.done).toNat ≤ fuel →
      ∃ st2 evs, copyLoop S D bufSize totalTarget false fuel st = some (.leave st2) ∧
        st2.trace = st.trace ++ evs ∧ ErrorFree evs ∧ FlushFree evs ∧
        written evs = (content st.src).take (totalTarget - st.done).toNat := by
  intro fuel
  induction fuel with
  | zero =>
    intro st hd _ hf
    have hno : ¬ st.done < totalTarget := by omega
    have hR : (totalTarget - st.done).toNat = 0 := by omega
    exact ⟨st, [], by simp [copyLoop, hno], by simp, by simp [ErrorFree],
      by simp [FlushFree], by simp [written, hR]⟩
  | succ fuel ih =>
    intro st hd hbuf hf
    by_cases hlt : st.done < totalTarget
    · obtain ⟨bs, hpre, hlen, hne, hzero, hsome⟩ :=
        iteration_nopad S D content hS hD bufSize totalTarget hb0 st hlt hbuf
      by_cases h0 : bs = []
      · obtain ⟨st2, evs, hit, _, htr, hwr, hef, hff⟩ := hzero h0
        have hc : content st.src = [] := by
          by_contra hcne
          exact hne hcne h0
        exact ⟨st2, evs, by simp [copyLoop, hlt, hit], htr, hef, hff, by simp [hwr, hc]⟩
      · obtain ⟨st1, evs1, hit, hdone1, htr1, hwr1, hc1, hbuf1, hef1, hff1⟩ := hsome h0
        have hpos : 0 < bs.length := List.length_pos.mpr h0
        obtain ⟨st2, evs2, hrun, htr2, hef2, hff2, hwr2⟩ :=
          ih st1 (by omega) hbuf1 (by omega)
        refine ⟨st2, evs1 ++ evs2, by simp [copyLoop, hlt, hit, hrun],
          by rw [htr2, htr1, List.append_assoc], errorFree_append _ _ hef1 hef2,
          flushFree_append _ _ hff1 hff2, ?_⟩
        rw [written_append, hwr1, hwr2, hc1, hdone1]
        have e : (totalTarget - st.done).toNat
            = bs.length + (totalTarget - (st.done + bs.length)).toNat := by omega
        obtain ⟨tl, htl⟩ := hpre
        rw [e, ← htl, List.take_append, List.drop_left]
    · have hR : (totalTarget - st.done).toNat = 0 := by omega
      exact ⟨st, [], by simp [copyLoop, hlt], by simp, by simp [ErrorFree],
        by simp [FlushFree], by simp [written, hR]⟩

theorem fullReads_chunked {σ : Type} (S : Source σ) (content : σ → List Byte)
    (h : FullReads S content) : Chunked S content := by
  intro st want hw
  obtain ⟨h1, h2⟩ := h st want hw
  refine ⟨(content st).take want.toNat, h1, List.take_prefix _ _, ?_, ?_, ?_⟩
  · simp only [List.length_take]
    omega
  · intro hne hnil
    have hlen : ((content st).take want.toNat).length = 0 := by rw [hnil]; rfl
    have hpos : 0 < (content st).length := List.length_pos.mpr hne
    simp only [List.length_take] at hlen
    omega
  · rw [h2, List.length_take]
    by_cases hle : want.toNat ≤ (content st).length
    · rw [Nat.min_eq_left hle]
    · rw [Nat.min_eq_right (by omega), List.drop_length,
        List.drop_eq_nil_of_le (by omega)]

theorem fullReads_shortOnlyAtEnd {σ : Type} (S : Source σ) (content : σ → List Byte)
    (h : FullReads S content) : ShortOnlyAtEnd S content := by
  intro st want bs hw hread hshort
  obtain ⟨h1, _⟩ := h st want hw
  rw [h1] at hread
  injection hread with hbs
  subst hbs
  simp only [List.length_take] at hshort
  exact List.take_of_length_le (by omega)

theorem plainSource_fullReads : FullReads plainSource (fun rest => rest) := by
  intro st want _
  exact ⟨rfl, rfl⟩

theorem fileSource_chunked : Chunked fileSource FileSrc.rest := by
  intro st want hw
  refine ⟨st.rest.take (st.count want), rfl, List.take_prefix _ _, ?_, ?_, ?_⟩
  · simp only [List.length_take, FileSrc.count]
    split <;> omega
  · intro hne hnil
    have hlen : (st.rest.take (st.count want)).length = 0 := by rw [hnil]; rfl
    have hpos : 0 < st.rest.length := List.length_pos.mpr hne
    simp only [List.length_take, FileSrc.count] at hlen
    split at hlen <;> omega
  · show st.rest.drop (st.count want) = st.rest.drop (st.rest.take (st.count want)).length
    have : (st.rest.take (st.count want)).length = st.count want := by
      simp only [List.length_take, FileSrc.count]
      split <;> omega
    rw [this]

theorem steadyDest_accepting (chunk : Nat) (flushOk : Bool) :
    Accepting (steadyDest chunk flushOk) := by
  intro d bs hne
  have hpos : 0 < bs.length := List.length_pos.mpr hne
  simp only [steadyDest]
  omega

theorem length_initialState_buf {σ δ : Type} (src : σ) (dst : δ) (junk : List Byte)
    (blockSize : Int) :
    (((initialState src dst junk blockSize).buf.length : Nat) : Int) = bufferSize blockSize := by
  have := bufferSize_nonneg blockSize
  simp only [initialState, length_freshBuffer]
  omega

theorem copyAligned_of_leave {σ δ : Type} (fuel : Nat) (S : Source σ) (D : Dest δ)
    (src : σ) (dst : δ) (junk : List Byte) (totalTarget blockSize sectorAlign : Int)
    (padUp : Bool) (st : CopyState σ δ)
    (h : copyLoop S D (bufferSize blockSize) totalTarget padUp fuel
      (initialState src dst junk blockSize) = some (.leave st)) :
    copyAlignedWithPadding fuel S D src dst junk totalTarget blockSize sectorAlign padUp
      = some (Outcome.mk true st.src st.dst st.done
          (st.trace ++ [Event.flush (D.flushToDisk st.dst)])) := by
  simp only [copyAlignedWithPadding, h]

/-! ## The copy engine: what reaches the destination -/

/-- C1. With padUp = true, a source whose reads return min(want, bytes left) and a
destination whose writes accept between 1 and the offered number of bytes, for
totalTarget > 0 and 0 < blockSize < 2^31: given fuel for totalTarget loop passes the
call returns true and the destination is appended exactly the first totalTarget bytes
of the source followed by zeros; when the source is shorter than totalTarget, exactly
totalTarget bytes arrive, the first |s| are the source and all later ones are zero. -/
theorem copy_padUp_pads_to_target {σ δ : Type} (S : Source σ) (D : Dest δ)
    (content : σ → List Byte) (hS : FullReads S content) (hD : Accepting D)
    (src : σ) (dst : δ) (junk : List Byte) (totalTarget blockSize sectorAlign : Int)
    (hT : 0 < totalTarget) (hB0 : 0 < blockSize) (hB1 : blockSize < 2147483648)
    (fuel : Nat) (hfuel : totalTarget.toNat ≤ fuel) :
    ∃ out, copyAlignedWithPadding fuel S D src dst junk totalTarget blockSize sectorAlign true
        = some out ∧ out.ok = true ∧
      written out.trace
        = (content src ++ List.replicate totalTarget.toNat 0).take totalTarget.toNat ∧
      ((content src).length < totalTarget.toNat →
        (written out.trace).length = totalTarget.toNat ∧
        (written out.trace).take (content src).length = content src ∧
        (written out.trace).drop (content src).length
          = List.replicate (totalTarget.toNat - (content src).length) 0) := by
  have hbs := bufferSize_of_range blockSize (by omega) hB1
  obtain ⟨st2, evs, hrun, _, htr, _, _, hwr⟩ :=
    copyLoop_pad S D content (fullReads_chunked S content hS)
      (fullReads_shortOnlyAtEnd S content hS) hD (bufferSize blockSize) totalTarget
      (by omega) (by omega) fuel (initialState src dst junk blockSize)
      (by simp only [initialState]; omega)
      (by rw [length_initialState_buf]) (by simp only [initialState]; omega)
  have hw : written (st2.trace ++ [Event.flush (D.flushToDisk st2.dst)])
      = (content src ++ List.replicate totalTarget.toNat 0).take totalTarget.toNat := by
    rw [written_append, htr, written_append, hwr]
    simp [initialState, written, Event.appended]
  refine ⟨Outcome.mk true st2.src st2.dst st2.done
    (st2.trace ++ [Event.flush (D.flushToDisk st2.dst)]),
    copyAligned_of_leave fuel S D src dst junk totalTarget blockSize sectorAlign true st2 hrun,
    rfl, hw, ?_⟩
  intro hlt
  show (written (st2.trace ++ [Event.flush (D.flushToDisk st2.dst)])).length = _ ∧ _
  rw [hw, take_append_zeros _ _ _ (le_refl _), List.take_of_length_le (by omega)]
  simp
  omega

/-- C2. With padUp = false, a source that hands out its bytes in chunks of between 1
and want bytes (0 once exhausted) and a destination whose writes accept between 1 and
the offered number of bytes, for totalTarget > 0 and 0 < blockSize < 2^31: given fuel
for totalTarget loop passes the call returns true and the destination is appended
exactly the first min(|s|, totalTarget) bytes of the source. -/
theorem copy_noPad_copies_exactly {σ δ : Type} (S : Source σ) (D : Dest δ)
    (content : σ → List Byte) (hS : Chunked S content) (hD : Accepting D)
    (src : σ) (dst : δ) (junk : List Byte) (totalTarget blockSize sectorAlign : Int)
    (hT : 0 < totalTarget) (hB0 : 0 < blockSize) (hB1 : blockSize < 2147483648)
    (fuel : Nat) (hfuel : totalTarget.toNat ≤ fuel) :
    ∃ out, copyAlignedWithPadding fuel S D src dst junk totalTarget blockSize sectorAlign false
        = some out ∧ out.ok = true ∧
      written out.trace
        = (content src).take (min (content src).length totalTarget.toNat) ∧
      (written out.trace).length = min (content src).length totalTarget.toNat := by
  have hbs := bufferSize_of_range blockSize (by omega) hB1
  obtain ⟨st2, evs, hrun, htr, _, _, hwr⟩ :=
    copyLoop_nopad S D content hS hD (bufferSize blockSize) totalTarget
      (by omega) fuel (initialState src dst junk blockSize)
      (by simp only [initialState]; omega)
      (by rw [length_initialState_buf]) (by simp only [initialState]; omega)
  have hw : written (st2.trace ++ [Event.flush (D.flushToDisk st2.dst)])
      = (content src).take (min (content src).length totalTarget.toNat) := by
    rw [written_append, htr, written_append, hwr]
    simp only [initialState, written, Event.appended, List.nil_append, List.append_nil,
      Int.sub_zero]
    by_cases hle : (content src).length ≤ totalTarget.toNat
    · rw [Nat.min_eq_left hle, List.take_of_length_le hle, List.take_length]
    · rw [Nat.min_eq_right (by omega)]
  refine ⟨Outcome.mk true st2.src st2.dst st2.done
    (st2.trace ++ [Event.flush (D.flushToDisk st2.dst)]),
    copyAligned_of_leave fuel S D src dst junk totalTarget blockSize sectorAlign false st2 hrun,
    rfl, hw, ?_⟩
  show (written (st2.trace ++ [Event.flush (D.flushToDisk st2.dst)])).length = _
  rw [hw, List.length_take]
  omega

/-- Witness of C1: a 3-byte file copied to a 5-byte target through a 2-byte buffer. -/
theorem copy_padUp_pads_to_target_witness :
    ∃ out, copyAlignedWithPadding 5 plainSource (steadyDest 1 true) [7, 8, 9] 0 [] 5 2 2 true
        = some out ∧ out.ok = true ∧ written out.trace = [7, 8, 9, 0, 0] := by
  obtain ⟨out, h1, h2, h3, _⟩ :=
    copy_padUp_pads_to_target plainSource (steadyDest 1 true) (fun rest => rest)
      plainSource_fullReads (steadyDest_accepting 1 true) [7, 8, 9] 0 [] 5 2 2
      (by decide) (by decide) (by decide) 5 (by decide)
  exact ⟨out, h1, h2, h3⟩

/-- Witness of C2: a 5-byte device read with 1-byte and 2-byte chunks into a file,
limit 8 bytes. -/
theorem copy_noPad_copies_exactly_witness :
    ∃ out, copyAlignedWithPadding 8 fileSource (steadyDest 1 true)
        (FileSrc.mk [1, 2, 3, 4, 5] [1]) 0 [] 8 2 2 false
        = some out ∧ out.ok = true ∧ written out.trace = [1, 2, 3, 4, 5] := by
  obtain ⟨out, h1, h2, h3, _⟩ :=
    copy_noPad_copies_exactly fileSource (steadyDest 1 true) FileSrc.rest
      fileSource_chunked (steadyDest_accepting 1 true) (FileSrc.mk [1, 2, 3, 4, 5] [1]) 0 []
      8 2 2 (by decide) (by decide) (by decide) 8 (by decide)
  exact ⟨out, h1, h2, h3⟩

/-- C9 fails as stated: a source holding 1,2,3,4 whose first read is short (1 byte of the
2 asked for) and whose next read is full, target 4, block size 2, padUp = true, error-free
writes. The call returns true and the destination holds 1,0,2,3: a zero sits between
source bytes, and the source byte 4 never arrives. -/
theorem copy_padUp_short_read_counterexample :
    Chunked fileSource FileSrc.rest ∧ Accepting (steadyDest 2 true) ∧
    ([1, 2, 3, 4] : List Byte).length ≤ 4 ∧
    (copyAlignedWithPadding 4 fileSource (steadyDest 2 true)
        (FileSrc.mk [1, 2, 3, 4] [1]) 0 [] 4 2 2 true).map
      (fun out => (out.ok, out.trace))
      = some (true, [Event.read 2 1, Event.write [1, 0] 2, Event.read 2 2,
                     Event.write [2, 3] 2, Event.flush true]) ∧
    (copyAlignedWithPadding 4 fileSource (steadyDest 2 true)
        (FileSrc.mk [1, 2, 3, 4] [1]) 0 [] 4 2 2 true).map
      (fun out => written out.trace) = some [1, 0, 2, 3] ∧
    ([1, 0, 2, 3] : List Byte).take 4 ≠ [1, 2, 3, 4] := by
  refine ⟨fileSource_chunked, steadyDest_accepting 2 true, by decide, by decide, by decide,
    by decide⟩

/-- C9 (amended). With padUp = true, a source that hands out its bytes in chunks and
whose reads are never short before the source is exhausted (a read that delivers fewer
bytes than asked for delivers all that is left), error-free writes, totalTarget > 0,
0 < blockSize < 2^31 and |s| <= totalTarget: the call returns true, the destination's
bytes [0, |s|) equal s and its bytes [|s|, totalTarget) are all zero. -/
theorem copy_padUp_source_then_zeros {σ δ : Type} (S : Source σ) (D : Dest δ)
    (content : σ → List Byte) (hS : Chunked S content) (hE : ShortOnlyAtEnd S content)
    (hD : Accepting D) (src : σ) (dst : δ) (junk : List Byte)
    (totalTarget blockSize sectorAlign : Int)
    (hT : 0 < totalTarget) (hB0 : 0 < blockSize) (hB1 : blockSize < 2147483648)
    (hlen : (content src).length ≤ totalTarget.toNat)
    (fuel : Nat) (hfuel : totalTarget.toNat ≤ fuel) :
    ∃ out, copyAlignedWithPadding fuel S D src dst junk totalTarget blockSize sectorAlign true
        = some out ∧ out.ok = true ∧
      (written out.trace).length = totalTarget.toNat ∧
      (written out.trace).take (content src).length = content src ∧
      (written out.trace).drop (content src).length
        = List.replicate (totalTarget.toNat - (content src).length) 0 := by
  have hbs := bufferSize_of_range blockSize (by omega) hB1
  obtain ⟨st2, evs, hrun, _, htr, _, _, hwr⟩ :=
    copyLoop_pad S D content hS hE hD (bufferSize blockSize) totalTarget
      (by omega) (by omega) fuel (initialState src dst junk blockSize)
      (by simp only [initialState]; omega)
      (by rw [length_initialState_buf]) (by simp only [initialState]; omega)
  have hw : written (st2.trace ++ [Event.flush (D.flushToDisk st2.dst)])
      = (content src ++ List.replicate totalTarget.toNat 0).take totalTarget.toNat := by
    rw [written_append, htr, written_append, hwr]
    simp [initialState, written, Event.appended]
  refine ⟨Outcome.mk true st2.src st2.dst st2.done
    (st2.trace ++ [Event.flush (D.flushToDisk st2.dst)]),
    copyAligned_of_leave fuel S D src dst junk totalTarget blockSize sectorAlign true st2 hrun,
    rfl, ?_⟩
  show (written (st2.trace ++ [Event.flush (D.flushToDisk st2.dst)])).length = _ ∧ _
  rw [hw, take_append_zeros _ _ _ (le_refl _), List.take_of_length_le hlen]
  simp
  omega

/-- Witness of C9 (amended): a 3-byte source, target 4, block size 2. -/
theorem copy_padUp_source_then_zeros_witness :
    ∃ out, copyAlignedWithPadding 4 plainSource (steadyDest 2 true) [1, 2, 3] 0 [] 4 2 2 true
        = some out ∧ out.ok = true ∧ (written out.trace).length = 4 ∧
      (written out.trace).take 3 = [1, 2, 3] ∧ (written out.trace).drop 3 = [0] := by
  obtain ⟨out, h1, h2, h3, h4, h5⟩ :=
    copy_padUp_source_then_zeros plainSource (steadyDest 2 true) (fun rest => rest)
      (fullReads_chunked _ _ plainSource_fullReads)
      (fullReads_shortOnlyAtEnd _ _ plainSource_fullReads) (steadyDest_accepting 2 true)
      [1, 2, 3] 0 [] 4 2 2 (by decide) (by decide) (by decide) (by decide) 4 (by decide)
  exact ⟨out, h1, h2, h3, h4, h5⟩

/-! ## The copy engine: facts that hold for every source and every destination -/

theorem hasError_append_right (a b : List Event) (h : HasError b) : HasError (a ++ b) := by
  obtain ⟨e, he, hp⟩ := h
  exact ⟨e, List.mem_append.mpr (Or.inr he), hp⟩

theorem hasError_cons (e : Event) (b : List Event) (h : HasError b) : HasError (e :: b) := by
  obtain ⟨x, hx, hp⟩ := h
  exact ⟨x, List.mem_cons_of_mem e hx, hp⟩

theorem not_hasError_of_errorFree (tr : List Event) (h : ErrorFree tr) : ¬ HasError tr := by
  rintro ⟨e, he, hp⟩
  obtain ⟨h1, h2⟩ := h e he
  rcases hp with hp | hp
  · rw [h1] at hp
    exact Bool.false_ne_true hp
  · rw [h2] at hp
    exact Bool.false_ne_true hp

/-- The events of the inner write loop: never a flush; error-free when it completes, and
with a failed write when it returns false. -/
theorem writeLoop_events {δ : Type} (D : Dest δ) (buf : List Byte) (n : Int) :
    ∀ (fuel : Nat) (off : Int) (dst : δ) (ok : Bool) (d : δ) (evs : List Event),
      writeLoop D buf n fuel off dst = some (ok, d, evs) →
      FlushFree evs ∧ (ok = true → ErrorFree evs) ∧ (ok = false → HasError evs) := by
  intro fuel
  induction fuel with
  | zero =>
    intro off dst ok d evs h
    by_cases hlt : off < n
    · simp [writeLoop, hlt] at h
    · simp only [writeLoop, hlt, if_false, Option.some.injEq, Prod.mk.injEq] at h
      obtain ⟨h1, _, h3⟩ := h
      subst h1 h3
      exact ⟨by simp [FlushFree], fun _ => by simp [ErrorFree], fun hc => by cases hc⟩
  | succ fuel ih =>
    intro off dst ok d evs h
    by_cases hlt : off < n
    · by_cases hwr : (D.write dst (slice buf off (n - off))).1 ≤ 0
      · simp only [writeLoop, hlt, hwr, if_true, Option.some.injEq, Prod.mk.injEq] at h
        obtain ⟨h1, _, h3⟩ := h
        subst h1 h3
        refine ⟨?_, (fun hc => by cases hc),
          fun _ => ⟨_, List.mem_singleton.mpr rfl, Or.inr ?_⟩⟩
        · intro e he
          rw [List.mem_singleton.mp he]
          rfl
        · simp only [Event.isWriteError, decide_eq_true_eq]
          exact hwr
      · simp only [writeLoop, hlt, hwr, if_true, if_false] at h
        rcases hrec : writeLoop D buf n fuel (off + (D.write dst (slice buf off (n - off))).1)
            (D.write dst (slice buf off (n - off))).2 with _ | ⟨ok2, d2, evs2⟩
        · rw [hrec] at h
          cases h
        · rw [hrec] at h
          simp only [Option.some.injEq, Prod.mk.injEq] at h
          obtain ⟨h1, _, h3⟩ := h
          subst h1 h3
          obtain ⟨hf, ht, hfalse⟩ := ih _ _ _ _ _ hrec
          refine ⟨?_, ?_, fun hc => hasError_cons _ _ (hfalse hc)⟩
          · intro e he
            rcases List.mem_cons.mp he with rfl | he
            · rfl
            · exact hf e he
          · intro hc e he
            rcases List.mem_cons.mp he with rfl | he
            · simp only [Event.isReadError, Event.isWriteError, decide_eq_false_iff_not,
                true_and]
              exact hwr
            · exact ht hc e he
    · simp only [writeLoop, hlt, if_false, Option.some.injEq, Prod.mk.injEq] at h
      obtain ⟨h1, _, h3⟩ := h
      subst h1 h3
      exact ⟨by simp [FlushFree], fun _ => by simp [ErrorFree], fun hc => by cases hc⟩

/-- What afterWrites can yield: the next pass with done advanced by inc and no error,
or a return of false after a failed write with done untouched. -/
theorem afterWrites_cases {σ δ : Type} (D : Dest δ) (st : CopyState σ δ) (src2 : σ)
    (ev : Event) (b : List Byte) (n inc : Int) (step : Step σ δ)
    (h : afterWrites D st src2 ev b n inc = some step) :
    ∃ evs, step.state.trace = st.trace ++ ev :: evs ∧ FlushFree evs ∧
      ((∃ st2, step = .next st2 ∧ ErrorFree evs ∧ st2.done = st.done + inc) ∨
       (∃ st2, step = .abort st2 ∧ HasError evs ∧ st2.done = st.done)) := by
  rcases hwl : writeLoop D b n n.toNat 0 st.dst with _ | ⟨ok, d2, evs⟩
  · simp [afterWrites, hwl] at h
  · obtain ⟨hf, ht, hfalse⟩ := writeLoop_events D b n _ _ _ _ _ _ hwl
    cases ok with
    | false =>
      simp only [afterWrites, hwl, Option.some.injEq] at h
      subst h
      exact ⟨evs, rfl, hf, Or.inr ⟨_, rfl, hfalse rfl, rfl⟩⟩
    | true =>
      simp only [afterWrites, hwl, Option.some.injEq] at h
      subst h
      exact ⟨evs, rfl, hf, Or.inl ⟨_, rfl, ht rfl, rfl⟩⟩

/-- What one pass through the loop body can yield, for any source and destination. -/
theorem iteration_cases {σ δ : Type} (S : Source σ) (D : Dest δ) (bufSize totalTarget : Int)
    (padUp : Bool) (st : CopyState σ δ) (step : Step σ δ)
    (h : iteration S D bufSize totalTarget padUp st = some step) :
    ∃ evs, step.state.trace = st.trace ++ evs ∧ FlushFree evs ∧
      ((∃ st2, step = .next st2 ∧ ErrorFree evs ∧
          ((st2.done = st.done + min bufSize (totalTarget - st.done) ∧
              0 ≤ (S.read st.src (min bufSize (totalTarget - st.done))).1.rd ∧
              ((S.read st.src (min bufSize (totalTarget - st.done))).1.rd = 0 ∨
               (S.read st.src (min bufSize (totalTarget - st.done))).1.rd
                < min bufSize (totalTarget - st.done))) ∨
           (st2.done = st.done + (S.read st.src (min bufSize (totalTarget - st.done))).1.rd ∧
              0 < (S.read st.src (min bufSize (totalTarget - st.done))).1.rd))) ∨
       (∃ st2, step = .leave st2 ∧ ErrorFree evs ∧ st2.done = st.done ∧ padUp = false) ∨
       (∃ st2, step = .abort st2 ∧ HasError evs ∧ st2.done = st.done)) := by
  generalize hw : min bufSize (totalTarget - st.done) = want at *
  simp only [iteration, hw] at h
  generalize hr : S.read st.src want = r at *
  by_cases hneg : r.1.rd < 0
  · simp only [hneg, if_true, Option.some.injEq] at h
    subst h
    refine ⟨[Event.read want r.1.rd], rfl, flushFree_read_cons _ _ _ (by simp [FlushFree]),
      Or.inr (Or.inr ⟨_, rfl, ⟨_, List.mem_singleton.mpr rfl, Or.inl ?_⟩, rfl⟩)⟩
    simp only [Event.isReadError, decide_eq_true_eq]
    exact hneg
  · simp only [hneg, if_false] at h
    by_cases hzero : r.1.rd = 0
    · simp only [hzero, if_true] at h
      cases padUp with
      | true =>
        simp only [if_true] at h
        obtain ⟨evs, htr, hff, hcase⟩ := afterWrites_cases D st _ _ _ _ _ step h
        refine ⟨Event.read want 0 :: evs, htr, flushFree_read_cons _ _ _ hff, ?_⟩
        rcases hcase with ⟨st2, hs, hef, hd⟩ | ⟨st2, hs, he, hd⟩
        · exact Or.inl ⟨st2, hs, errorFree_read_cons _ _ _ (le_refl 0) hef,
            Or.inl ⟨hd, by omega, Or.inl hzero⟩⟩
        · exact Or.inr (Or.inr ⟨st2, hs, hasError_cons _ _ he, hd⟩)
      | false =>
        simp only [Bool.false_eq_true, if_false, Option.some.injEq] at h
        subst h
        exact ⟨[Event.read want 0], rfl, flushFree_read_cons _ _ _ (by simp [FlushFree]),
          Or.inr (Or.inl ⟨_, rfl, errorFree_read_cons _ _ _ (le_refl 0) (by simp [ErrorFree]),
            rfl, rfl⟩)⟩
    · simp only [hzero, if_false] at h
      by_cases hpad : r.1.rd < want ∧ padUp = true
      · simp only [hpad, and_self, if_true] at h
        obtain ⟨evs, htr, hff, hcase⟩ := afterWrites_cases D st _ _ _ _ _ step h
        refine ⟨Event.read want r.1.rd :: evs, htr, flushFree_read_cons _ _ _ hff, ?_⟩
        rcases hcase with ⟨st2, hs, hef, hd⟩ | ⟨st2, hs, he, hd⟩
        · exact Or.inl ⟨st2, hs, errorFree_read_cons _ _ _ (by omega) hef,
            Or.inl ⟨hd, by omega, Or.inr hpad.1⟩⟩
        · exact Or.inr (Or.inr ⟨st2, hs, hasError_cons _ _ he, hd⟩)
      · simp only [hpad, if_false] at h
        obtain ⟨evs, htr, hff, hcase⟩ := afterWrites_cases D st _ _ _ _ _ step h
        refine ⟨Event.read want r.1.rd :: evs, htr, flushFree_read_cons _ _ _ hff, ?_⟩
        rcases hcase with ⟨st2, hs, hef, hd⟩ | ⟨st2, hs, he, hd⟩
        · exact Or.inl ⟨st2, hs, errorFree_read_cons _ _ _ (by omega) hef,
            Or.inr ⟨hd, by omega⟩⟩
        · exact Or.inr (Or.inr ⟨st2, hs, hasError_cons _ _ he, hd⟩)

/-- What the whole loop can yield: it is left without any failed read or write, or the
function returns false after one; no flush happens inside the loop. -/
theorem copyLoop_cases {σ δ : Type} (S : Source σ) (D : Dest δ) (bufSize totalTarget : Int)
    (padUp : Bool) :
    ∀ (fuel : Nat) (st : CopyState σ δ) (step : Step σ δ),
      copyLoop S D bufSize totalTarget padUp fuel st = some step →
      ∃ evs, step.state.trace = st.trace ++ evs ∧ FlushFree evs ∧
        ((∃ st2, step = .leave st2 ∧ ErrorFree evs) ∨
         (∃ st2, step = .abort st2 ∧ HasError evs)) := by
  intro fuel
  induction fuel with
  | zero =>
    intro st step h
    by_cases hlt : st.done < totalTarget
    · simp [copyLoop, hlt] at h
    · simp only [copyLoop, hlt, if_false, Option.some.injEq] at h
      subst h
      exact ⟨[], by simp [Step.state], by simp [FlushFree],
        Or.inl ⟨st, rfl, by simp [ErrorFree]⟩⟩
  | succ fuel ih =>
    intro st step h
    by_cases hlt : st.done < totalTarget
    · simp only [copyLoop, hlt, if_true] at h
      rcases hit : iteration S D bufSize totalTarget padUp st with _ | step1
      · simp [hit] at h
      · obtain ⟨evs1, htr1, hff1, hc1⟩ :=
          iteration_cases S D bufSize totalTarget padUp st step1 hit
        rw [hit] at h
        rcases hc1 with ⟨st1, hs, hef1, _⟩ | ⟨st1, hs, hef1, _⟩ | ⟨st1, hs, he1, _⟩
        · subst hs
          simp only at h
          obtain ⟨evs2, htr2, hff2, hc2⟩ := ih st1 step h
          simp only [Step.state] at htr1
          refine ⟨evs1 ++ evs2, by rw [htr2, htr1, List.append_assoc],
            flushFree_append _ _ hff1 hff2, ?_⟩
          rcases hc2 with ⟨st2, hs2, hef2⟩ | ⟨st2, hs2, he2⟩
          · exact Or.inl ⟨st2, hs2, errorFree_append _ _ hef1 hef2⟩
          · exact Or.inr ⟨st2, hs2, hasError_append_right _ _ he2⟩
        · subst hs
          simp only [Option.some.injEq] at h
          subst h
          exact ⟨evs1, htr1, hff1, Or.inl ⟨st1, rfl, hef1⟩⟩
        · subst hs
          simp only [Option.some.injEq] at h
          subst h
          exact ⟨evs1, htr1, hff1, Or.inr ⟨st1, rfl, he1⟩⟩
    · simp only [copyLoop, hlt, if_false, Option.some.injEq] at h
      subst h
      exact ⟨[], by simp [Step.state], by simp [FlushFree],
        Or.inl ⟨st, rfl, by simp [ErrorFree]⟩⟩

theorem writeLoop_congr {δ : Type} (D1 D2 : Dest δ) (hw : D1.write = D2.write)
    (buf : List Byte) (n : Int) :
    ∀ (fuel : Nat) (off : Int) (dst : δ),
      writeLoop D1 buf n fuel off dst = writeLoop D2 buf n fuel off dst := by
  intro fuel
  induction fuel with
  | zero =>
    intro off dst
    rfl
  | succ fuel ih =>
    intro off dst
    simp only [writeLoop, hw, ih]

theorem iteration_congr {σ δ : Type} (S : Source σ) (D1 D2 : Dest δ)
    (hw : D1.write = D2.write) (bufSize totalTarget : Int) (padUp : Bool)
    (st : CopyState σ δ) :
    iteration S D1 bufSize totalTarget padUp st = iteration S D2 bufSize totalTarget padUp st := by
  simp only [iteration, afterWrites, writeLoop_congr D1 D2 hw]

/-- The loop does not depend on what flushToDisk answers. -/
theorem copyLoop_congr {σ δ : Type} (S : Source σ) (D1 D2 : Dest δ)
    (hw : D1.write = D2.write) (bufSize totalTarget : Int) (padUp : Bool) :
    ∀ (fuel : Nat) (st : CopyState σ δ),
      copyLoop S D1 bufSize totalTarget padUp fuel st
        = copyLoop S D2 bufSize totalTarget padUp fuel st := by
  intro fuel
  induction fuel with
  | zero =>
    intro st
    rfl
  | succ fuel ih =>
    intro st
    simp only [copyLoop, iteration_congr S D1 D2 hw, ih]

/-- The trace and result of a finished call, read off the way the loop ended. -/
theorem copyAligned_cases {σ δ : Type} (fuel : Nat) (S : Source σ) (D : Dest δ)
    (src : σ) (dst : δ) (junk : List Byte) (totalTarget blockSize sectorAlign : Int)
    (padUp : Bool) (out : Outcome σ δ)
    (h : copyAlignedWithPadding fuel S D src dst junk totalTarget blockSize sectorAlign padUp
      = some out) :
    (∃ st, copyLoop S D (bufferSize blockSize) totalTarget padUp fuel
        (initialState src dst junk blockSize) = some (.leave st) ∧
      out = Outcome.mk true st.src st.dst st.done
        (st.trace ++ [Event.flush (D.flushToDisk st.dst)]) ∧
      ErrorFree st.trace ∧ FlushFree st.trace) ∨
    (∃ st, copyLoop S D (bufferSize blockSize) totalTarget padUp fuel
        (initialState src dst junk blockSize) = some (.abort st) ∧
      out = Outcome.mk false st.src st.dst st.done st.trace ∧
      HasError st.trace ∧ FlushFree st.trace) := by
  rcases hl : copyLoop S D (bufferSize blockSize) totalTarget padUp fuel
      (initialState src dst junk blockSize) with _ | step
  · simp [copyAlignedWithPadding, hl] at h
  · obtain ⟨evs, htr, hff, hc⟩ := copyLoop_cases S D _ _ _ fuel _ step hl
    simp only [initialState, List.nil_append] at htr
    rcases hc with ⟨st2, hs, hef⟩ | ⟨st2, hs, he⟩
    · subst hs
      simp only [copyAlignedWithPadding, hl, Option.some.injEq] at h
      simp only [Step.state] at htr
      refine Or.inl ⟨st2, rfl, h.symm, ?_, ?_⟩
      · rw [htr]
        exact hef
      · rw [htr]
        exact hff
    · subst hs
      simp only [copyAlignedWithPadding, hl, Option.some.injEq] at h
      simp only [Step.state] at htr
      refine Or.inr ⟨st2, rfl, h.symm, ?_, ?_⟩
      · rw [htr]
        exact he
      · rw [htr]
        exact hff

/-! ## The copy engine: errors, flush and progress -/

/-- C3. A finished call of copyAlignedWithPadding returned false if and only if some
source read returned a negative count or some destination write returned a count <= 0
during the run; in particular any failed write in the trace, after however many bytes
written, makes the result false; and a destination that differs only in what
flushToDisk answers gives the same returned value. -/
theorem copy_false_iff_read_or_write_error {σ δ : Type} (fuel : Nat) (S : Source σ)
    (D : Dest δ) (src : σ) (dst : δ) (junk : List Byte)
    (totalTarget blockSize sectorAlign : Int) (padUp : Bool) (out : Outcome σ δ)
    (h : copyAlignedWithPadding fuel S D src dst junk totalTarget blockSize sectorAlign padUp
      = some out) :
    (out.ok = false ↔ HasError out.trace) ∧
    (∀ e ∈ out.trace, e.isWriteError = true → out.ok = false) ∧
    (∀ D2 : Dest δ, D2.write = D.write →
      (copyAlignedWithPadding fuel S D2 src dst junk totalTarget blockSize sectorAlign
        padUp).map (fun o => o.ok) = some out.ok) := by
  have hiff : out.ok = false ↔ HasError out.trace := by
    rcases copyAligned_cases fuel S D src dst junk totalTarget blockSize sectorAlign padUp out h
      with ⟨st, _, ho, hef, _⟩ | ⟨st, _, ho, he, _⟩
    · subst ho
      constructor
      · intro hc
        cases hc
      · intro he
        exfalso
        refine not_hasError_of_errorFree _ (errorFree_append _ _ hef ?_) he
        intro e hmem
        rw [List.mem_singleton.mp hmem]
        exact ⟨rfl, rfl⟩
    · subst ho
      exact ⟨fun _ => he, fun _ => rfl⟩
  refine ⟨hiff, fun e he hw => hiff.mpr ⟨e, he, Or.inr hw⟩, ?_⟩
  intro D2 hw
  rcases copyAligned_cases fuel S D src dst junk totalTarget blockSize sectorAlign padUp out h
    with ⟨st, hl, ho, _, _⟩ | ⟨st, hl, ho, _, _⟩
  · rw [← copyLoop_congr S D2 D hw] at hl
    subst ho
    simp only [copyAlignedWithPadding, hl, Option.map_some']
  · rw [← copyLoop_congr S D2 D hw] at hl
    subst ho
    simp only [copyAlignedWithPadding, hl, Option.map_some']

/-- C7. Over the trace of one finished call: when it returned true, the trace is a
flush-free part (all reads and writes) followed by exactly one flushToDisk call, so the
flush happens once and after the last write; when it returned false, flushToDisk was
not called at all. -/
theorem copy_flushes_once_at_end {σ δ : Type} (fuel : Nat) (S : Source σ)
    (D : Dest δ) (src : σ) (dst : δ) (junk : List Byte)
    (totalTarget blockSize sectorAlign : Int) (padUp : Bool) (out : Outcome σ δ)
    (h : copyAlignedWithPadding fuel S D src dst junk totalTarget blockSize sectorAlign padUp
      = some out) :
    (out.ok = true →
      ∃ pre, out.trace = pre ++ [Event.flush (D.flushToDisk out.dst)] ∧ FlushFree pre ∧
        (out.trace.filter Event.isFlush).length = 1) ∧
    (out.ok = false → FlushFree out.trace ∧ (out.trace.filter Event.isFlush).length = 0) := by
  have hcount : ∀ tr : List Event, FlushFree tr → tr.filter Event.isFlush = [] := by
    intro tr htr
    exact List.filter_eq_nil_iff.mpr (fun e he => by simp [htr e he])
  rcases copyAligned_cases fuel S D src dst junk totalTarget blockSize sectorAlign padUp out h
    with ⟨st, _, ho, _, hff⟩ | ⟨st, _, ho, _, hff⟩
  · subst ho
    refine ⟨fun _ => ⟨st.trace, rfl, hff, ?_⟩, (fun hc => by cases hc)⟩
    simp [List.filter_append, hcount st.trace hff, Event.isFlush]
  · subst ho
    refine ⟨(fun hc => by cases hc), fun _ => ⟨hff, ?_⟩⟩
    simp [hcount st.trace hff]

/-- Witness of C3: the destination fails every write once it has taken 3 bytes; the
copy of a 5-byte source returns false, also when flushToDisk would fail. -/
theorem copy_false_iff_read_or_write_error_witness :
    ∃ out, copyAlignedWithPadding 8 fileSource (cappedDest 1 3 true)
        (FileSrc.mk [1, 2, 3, 4, 5] [1]) 0 [] 8 2 2 false = some out ∧
      (out.ok = false ↔ HasError out.trace) ∧ out.ok = false ∧
      (copyAlignedWithPadding 8 fileSource (cappedDest 1 3 false)
        (FileSrc.mk [1, 2, 3, 4, 5] [1]) 0 [] 8 2 2 false).map (fun o => o.ok)
        = some out.ok := by
  obtain ⟨out, h⟩ := Option.isSome_iff_exists.mp
    (show (copyAlignedWithPadding 8 fileSource (cappedDest 1 3 true)
        (FileSrc.mk [1, 2, 3, 4, 5] [1]) 0 [] 8 2 2 false).isSome = true by decide)
  have hv : (copyAlignedWithPadding 8 fileSource (cappedDest 1 3 true)
      (FileSrc.mk [1, 2, 3, 4, 5] [1]) 0 [] 8 2 2 false).map (fun o => o.ok)
      = some false := by decide
  rw [h] at hv
  obtain ⟨h1, _, h3⟩ := copy_false_iff_read_or_write_error 8 fileSource (cappedDest 1 3 true)
    (FileSrc.mk [1, 2, 3, 4, 5] [1]) 0 [] 8 2 2 false out h
  exact ⟨out, h, h1, by simpa using hv, h3 (cappedDest 1 3 false) rfl⟩

/-- Witness of C7: a successful 4-byte copy ends with its only flush. -/
theorem copy_flushes_once_at_end_witness :
    ∃ out, copyAlignedWithPadding 4 plainSource (steadyDest 1 true) [1, 2, 3] 0 [] 4 2 2 true
        = some out ∧ out.ok = true ∧
      ∃ pre, out.trace = pre ++ [Event.flush ((steadyDest 1 true).flushToDisk out.dst)] ∧
        FlushFree pre ∧ (out.trace.filter Event.isFlush).length = 1 := by
  obtain ⟨out, h⟩ := Option.isSome_iff_exists.mp
    (show (copyAlignedWithPadding 4 plainSource (steadyDest 1 true) [1, 2, 3] 0 [] 4 2 2
      true).isSome = true by decide)
  have hv : (copyAlignedWithPadding 4 plainSource (steadyDest 1 true) [1, 2, 3] 0 [] 4 2 2
      true).map (fun o => o.ok) = some true := by decide
  rw [h] at hv
  have hok : out.ok = true := by simpa using hv
  exact ⟨out, h, hok, (copy_flushes_once_at_end 4 plainSource (steadyDest 1 true)
    [1, 2, 3] 0 [] 4 2 2 true out h).1 hok⟩

/-- One pass through the loop body never lowers done and never takes it past
totalTarget, when reads return at most the requested count. -/
theorem iteration_done {σ δ : Type} (S : Source σ) (D : Dest δ) (hS : ReadsWithinWant S)
    (bufSize totalTarget : Int) (padUp : Bool) (hb : 0 ≤ bufSize) (st : CopyState σ δ)
    (hlt : st.done < totalTarget) (step : Step σ δ)
    (h : iteration S D bufSize totalTarget padUp st = some step) :
    st.done ≤ step.state.done ∧ step.state.done ≤ totalTarget := by
  have hwant : 0 ≤ min bufSize (totalTarget - st.done) := by omega
  have hrd := hS st.src _ hwant
  obtain ⟨evs, _, _, hc⟩ := iteration_cases S D bufSize totalTarget padUp st step h
  rcases hc with ⟨st2, hs, _, hd⟩ | ⟨st2, hs, _, hd, _⟩ | ⟨st2, hs, _, hd⟩
  · subst hs
    simp only [Step.state]
    rcases hd with ⟨hd, _, _⟩ | ⟨hd, hpos⟩
    · omega
    · omega
  · subst hs
    simp only [Step.state]
    omega
  · subst hs
    simp only [Step.state]
    omega

theorem stateAfter_done {σ δ : Type} (S : Source σ) (D : Dest δ) (hS : ReadsWithinWant S)
    (bufSize totalTarget : Int) (padUp : Bool) (hb : 0 ≤ bufSize) (st0 : CopyState σ δ)
    (h0 : st0.done ≤ totalTarget) :
    ∀ (n : Nat) (st : CopyState σ δ),
      stateAfter S D bufSize totalTarget padUp n st0 = some st →
      st0.done ≤ st.done ∧ st.done ≤ totalTarget := by
  intro n
  induction n with
  | zero =>
    intro st h
    simp only [stateAfter, Option.some.injEq] at h
    subst h
    exact ⟨le_refl _, h0⟩
  | succ n ih =>
    intro st h
    simp only [stateAfter] at h
    rcases hprev : stateAfter S D bufSize totalTarget padUp n st0 with _ | st1
    · simp [hprev] at h
    · rw [hprev] at h
      obtain ⟨ha, hb1⟩ := ih st1 hprev
      by_cases hlt : st1.done < totalTarget
      · simp only [hlt, if_true] at h
        rcases hit : iteration S D bufSize totalTarget padUp st1 with _ | step
        · simp [hit] at h
        · have hd := iteration_done S D hS bufSize totalTarget padUp hb st1 hlt step hit
          rw [hit] at h
          cases step with
          | next st2 =>
            simp only [Option.some.injEq] at h
            subst h
            simp only [Step.state] at hd
            omega
          | leave st2 => simp at h
          | abort st2 => simp at h
      · simp [hlt] at h

theorem copyLoop_done {σ δ : Type} (S : Source σ) (D : Dest δ) (hS : ReadsWithinWant S)
    (bufSize totalTarget : Int) (padUp : Bool) (hb : 0 ≤ bufSize) :
    ∀ (fuel : Nat) (st : CopyState σ δ) (step : Step σ δ), st.done ≤ totalTarget →
      copyLoop S D bufSize totalTarget padUp fuel st = some step →
      st.done ≤ step.state.done ∧ step.state.done ≤ totalTarget := by
  intro fuel
  induction fuel with
  | zero =>
    intro st step h0 h
    by_cases hlt : st.done < totalTarget
    · simp [copyLoop, hlt] at h
    · simp only [copyLoop, hlt, if_false, Option.some.injEq] at h
      subst h
      exact ⟨le_refl _, h0⟩
  | succ fuel ih =>
    intro st step h0 h
    by_cases hlt : st.done < totalTarget
    · simp only [copyLoop, hlt, if_true] at h
      rcases hit : iteration S D bufSize totalTarget padUp st with _ | step1
      · simp [hit] at h
      · have hd := iteration_done S D hS bufSize totalTarget padUp hb st hlt step1 hit
        rw [hit] at h
        cases step1 with
        | next st1 =>
          simp only at h
          simp only [Step.state] at hd
          have := ih st1 step hd.2 h
          omega
        | leave st1 =>
          simp only [Option.some.injEq] at h
          subst h
          exact hd
        | abort st1 =>
          simp only [Option.some.injEq] at h
          subst h
          exact hd
    · simp only [copyLoop, hlt, if_false, Option.some.injEq] at h
      subst h
      exact ⟨le_refl _, h0⟩

/-- C4. For totalTarget >= 0, every blockSize (the bound 0 < blockSize < 2^31 is not
needed), either padUp and a source whose reads return at most the requested count:
done starts at 0; at the end of every pass through the loop body that leads to a
further pass, 0 <= done <= totalTarget; whatever way a pass ends (next pass, break,
return false) it does not lower done and keeps it at most totalTarget; and when the
call finishes, 0 <= done <= totalTarget. -/
theorem copy_done_monotone_and_bounded {σ δ : Type} (S : Source σ) (D : Dest δ)
    (hS : ReadsWithinWant S) (src : σ) (dst : δ) (junk : List Byte)
    (totalTarget blockSize sectorAlign : Int) (padUp : Bool)
    (hT : 0 ≤ totalTarget) :
    (initialState src dst junk blockSize).done = 0 ∧
    (∀ (n : Nat) (st : CopyState σ δ),
      stateAfter S D (bufferSize blockSize) totalTarget padUp n
        (initialState src dst junk blockSize) = some st →
      0 ≤ st.done ∧ st.done ≤ totalTarget ∧
      ∀ step, st.done < totalTarget →
        iteration S D (bufferSize blockSize) totalTarget padUp st = some step →
        st.done ≤ step.state.done ∧ step.state.done ≤ totalTarget) ∧
    (∀ (fuel : Nat) (out : Outcome σ δ),
      copyAlignedWithPadding fuel S D src dst junk totalTarget blockSize sectorAlign padUp
        = some out → 0 ≤ out.done ∧ out.done ≤ totalTarget) := by
  have hb := bufferSize_nonneg blockSize
  have hinit : (initialState src dst junk blockSize).done = 0 := rfl
  refine ⟨hinit, ?_, ?_⟩
  · intro n st h
    have hd := stateAfter_done S D hS (bufferSize blockSize) totalTarget padUp hb
      (initialState src dst junk blockSize) (by rw [hinit]; exact hT) n st h
    rw [hinit] at hd
    exact ⟨hd.1, hd.2, fun step hlt hit =>
      iteration_done S D hS (bufferSize blockSize) totalTarget padUp hb st hlt step hit⟩
  · intro fuel out h
    rcases copyAligned_cases fuel S D src dst junk totalTarget blockSize sectorAlign padUp out h
      with ⟨st, hl, ho, _, _⟩ | ⟨st, hl, ho, _, _⟩
    · have hd := copyLoop_done S D hS (bufferSize blockSize) totalTarget padUp hb fuel _ _
        (by rw [hinit]; exact hT) hl
      rw [hinit] at hd
      subst ho
      exact hd
    · have hd := copyLoop_done S D hS (bufferSize blockSize) totalTarget padUp hb fuel _ _
        (by rw [hinit]; exact hT) hl
      rw [hinit] at hd
      subst ho
      exact hd

theorem plainSource_readsWithinWant : ReadsWithinWant plainSource := by
  intro st want hw
  simp only [plainSource, ReadResult.rd, List.length_take]
  omega

/-- Witness of C4: a 3-byte file, target 5, block size 2; after two passes done is 4. -/
theorem copy_done_monotone_and_bounded_witness :
    (stateAfter plainSource (steadyDest 1 true) (bufferSize 2) 5 true 2
      (initialState [1, 2, 3] 0 [] 2)).map (fun st => st.done) = some 4 ∧
    (∀ (n : Nat) (st : CopyState (List Byte) Nat),
      stateAfter plainSource (steadyDest 1 true) (bufferSize 2) 5 true n
        (initialState [1, 2, 3] 0 [] 2) = some st → 0 ≤ st.done ∧ st.done ≤ 5) ∧
    (∀ (fuel : Nat) (out : Outcome (List Byte) Nat),
      copyAlignedWithPadding fuel plainSource (steadyDest 1 true) [1, 2, 3] 0 [] 5 2 2 true
        = some out → 0 ≤ out.done ∧ out.done ≤ 5) := by
  obtain ⟨_, h2, h3⟩ := copy_done_monotone_and_bounded plainSource (steadyDest 1 true)
    plainSource_readsWithinWant [1, 2, 3] 0 [] 5 2 2 true (by decide)
  exact ⟨by decide, fun n st h => ⟨(h2 n st h).1, (h2 n st h).2.1⟩, h3⟩

/-! ## The device enumerator -/

/-- What a descriptor pushed by the loop body looks like. -/
theorem probeEntry_some (env : SysEnv) (name : QString) (d : DiskInfo)
    (h : probeEntry env name = some d) :
    isExcludedName name = false ∧ env.isBlockDevice (devPathOf name) = true ∧
    d.path = devPathOf name ∧
    d.logicalSector
      = (if (match env.readAllTrimmed (sysAttr name "/queue/logical_block_size") with
              | some t => env.toUInt t
              | none => 512) ≠ 0
         then (match env.readAllTrimmed (sysAttr name "/queue/logical_block_size") with
              | some t => env.toUInt t
              | none => 512)
         else 512) ∧
    d.physicalSector
      = (if (match env.readAllTrimmed (sysAttr name "/queue/physical_block_size") with
              | some t => env.toUInt t
              | none => 512) ≠ 0
         then (match env.readAllTrimmed (sysAttr name "/queue/physical_block_size") with
              | some t => env.toUInt t
              | none => 512)
         else d.logicalSector) := by
  unfold probeEntry at h
  by_cases hx : isExcludedName name = true
  · simp [hx] at h
  · by_cases hb : env.isBlockDevice (devPathOf name) = true
    · simp only [hx, hb, Bool.not_true, if_false, Bool.false_eq_true, Option.some.injEq] at h
      subst h
      exact ⟨by simpa using hx, hb, rfl, rfl, rfl⟩
    · simp [hx, hb] at h

theorem mem_enumerate (env : SysEnv) (entries : List QString) (d : DiskInfo)
    (h : d ∈ (enumerate env entries).1) :
    ∃ name ∈ entries, probeEntry env name = some d := by
  simpa [enumerate, List.mem_filterMap] using h

theorem map_path_filterMap_probe (env : SysEnv) (entries : List QString) :
    (entries.filterMap (probeEntry env)).map DiskInfo.path
      = (entries.filter (fun n => (probeEntry env n).isSome)).map devPathOf := by
  induction entries with
  | nil => rfl
  | cons n ns ih =>
    rcases hp : probeEntry env n with _ | d
    · simp [List.filterMap_cons, List.filter_cons, hp, ih]
    · have hd := (probeEntry_some env n d hp).2.2.1
      simp [List.filterMap_cons, List.filter_cons, hp, ih, hd]

/-- C6. On the Unix backend, for every listing of /sys/block and every outcome of the
stat and attribute reads: no returned descriptor has the path "/dev/" + name of a name
starting with "loop", "ram" or "sr"; the returned paths are the "/dev/" paths of a
sub-listing of the entries, in the order of the listing; and an empty listing gives an
empty result together with the no-disks diagnostic. -/
theorem enumerate_excludes_virtual_keeps_order (env : SysEnv) (entries : List QString) :
    (∀ d ∈ (enumerate env entries).1, ∀ name : QString,
      ("loop".toList <+: name ∨ "ram".toList <+: name ∨ "sr".toList <+: name) →
      d.path ≠ "/dev/".toList ++ name) ∧
    ((enumerate env entries).1.map DiskInfo.path
      = (entries.filter (fun n => (probeEntry env n).isSome)).map
          (fun n => "/dev/".toList ++ n)) ∧
    List.Sublist ((enumerate env entries).1.map DiskInfo.path)
      (entries.map (fun n => "/dev/".toList ++ n)) ∧
    enumerate env [] = ([], [Diag.noDisks]) := by
  refine ⟨?_, map_path_filterMap_probe env entries, ?_, rfl⟩
  · intro d hd name hname hpath
    obtain ⟨n, _, hp⟩ := mem_enumerate env entries d hd
    obtain ⟨hx, _, hdp, _⟩ := probeEntry_some env n d hp
    rw [hdp] at hpath
    have hn : n = name := List.append_cancel_left hpath
    subst hn
    have hx2 : isExcludedName n = true := by
      simp only [isExcludedName, Bool.or_eq_true, List.isPrefixOf_iff_prefix]
      rcases hname with h | h | h
      · exact Or.inl (Or.inl h)
      · exact Or.inl (Or.inr h)
      · exact Or.inr h
    rw [hx] at hx2
    cases hx2
  · show List.Sublist ((entries.filterMap (probeEntry env)).map DiskInfo.path) _
    rw [map_path_filterMap_probe]
    exact (List.filter_sublist entries).map devPathOf

/-- Witness of C6: of loop0, sda, ram1, sdb, sr0 only sda and sdb are returned, in
that order. -/
theorem enumerate_excludes_virtual_keeps_order_witness :
    (enumerate bareEnv ["loop0".toList, "sda".toList, "ram1".toList, "sdb".toList,
        "sr0".toList]).1.map DiskInfo.path = ["/dev/sda".toList, "/dev/sdb".toList] ∧
    List.Sublist ((enumerate bareEnv ["loop0".toList, "sda".toList, "ram1".toList,
        "sdb".toList, "sr0".toList]).1.map DiskInfo.path)
      (["loop0".toList, "sda".toList, "ram1".toList, "sdb".toList, "sr0".toList].map
        (fun n => "/dev/".toList ++ n)) := by
  exact ⟨by decide, (enumerate_excludes_virtual_keeps_order bareEnv
    ["loop0".toList, "sda".toList, "ram1".toList, "sdb".toList, "sr0".toList]).2.2.1⟩

/-- C8 fails as stated: on sampleEnv the file queue/physical_block_size of sda is
readable but empty, so it does not parse to a non-zero number, while the logical block
size reads 4096; the descriptor gets physicalSector = 4096, not 512. -/
theorem enumerate_physical_fallback_counterexample :
    sampleEnv.readAllTrimmed "/sys/block/sda/queue/physical_block_size".toList = some [] ∧
    sampleEnv.toUInt [] = 0 ∧
    enumerate sampleEnv ["sda".toList]
      = ([{ path := "/dev/sda".toList, model := "Unknown".toList, size := 0,
            removable := false, logicalSector := 4096, physicalSector := 4096 }], []) ∧
    (4096 : Nat) ≠ 512 := by
  refine ⟨by decide, by decide, by decide, by decide⟩

/-- C8 (amended). For every descriptor produced by enumerate on the Unix backend,
logicalSector and physicalSector are positive; logicalSector equals 512 whenever
queue/logical_block_size is missing, unreadable or does not parse to a non-zero number;
physicalSector equals 512 whenever queue/physical_block_size is missing or unreadable,
and equals logicalSector whenever that file is readable but does not parse to a
non-zero number. -/
theorem enumerate_sector_defaults (env : SysEnv) (entries : List QString) (d : DiskInfo)
    (h : d ∈ (enumerate env entries).1) :
    ∃ name ∈ entries, d.path = "/dev/".toList ++ name ∧
      0 < d.logicalSector ∧ 0 < d.physicalSector ∧
      ((∀ t, env.readAllTrimmed (sysAttr name "/queue/logical_block_size") = some t →
          env.toUInt t = 0) → d.logicalSector = 512) ∧
      (env.readAllTrimmed (sysAttr name "/queue/physical_block_size") = none →
          d.physicalSector = 512) ∧
      (∀ t, env.readAllTrimmed (sysAttr name "/queue/physical_block_size") = some t →
          env.toUInt t = 0 → d.physicalSector = d.logicalSector) := by
  obtain ⟨name, hmem, hp⟩ := mem_enumerate env entries d h
  obtain ⟨_, _, hpath, hlog, hphy⟩ := probeEntry_some env name d hp
  have hlpos : 0 < d.logicalSector := by
    rw [hlog]
    split <;> omega
  refine ⟨name, hmem, hpath, hlpos, ?_, ?_, ?_, ?_⟩
  · rw [hphy]
    split <;> omega
  · intro hund
    rw [hlog]
    rcases hr : env.readAllTrimmed (sysAttr name "/queue/logical_block_size") with _ | t
    · simp
    · simp [hund t hr]
  · intro hnone
    rw [hphy, hnone]
    simp
  · intro t hr hz
    rw [hphy, hr]
    simp [hz]

/-- Witness of C8 (amended): on a host without readable attributes sda gets 512/512. -/
theorem enumerate_sector_defaults_witness :
    DiskInfo.mk "/dev/sda".toList "Unknown".toList 0 false 512 512
      ∈ (enumerate bareEnv ["sda".toList]).1 ∧
    ∃ name ∈ ["sda".toList],
      (DiskInfo.mk "/dev/sda".toList "Unknown".toList 0 false 512 512).path
        = "/dev/".toList ++ name ∧
      0 < (DiskInfo.mk "/dev/sda".toList "Unknown".toList 0 false 512 512).logicalSector ∧
      0 < (DiskInfo.mk "/dev/sda".toList "Unknown".toList 0 false 512 512).physicalSector := by
  obtain ⟨name, hm, hp, h1, h2, _⟩ := enumerate_sector_defaults bareEnv ["sda".toList]
    (DiskInfo.mk "/dev/sda".toList "Unknown".toList 0 false 512 512) (by decide)
  exact ⟨by decide, name, hm, hp, h1, h2⟩

/-! ## The driver: alignment checks and the target size -/

theorem wrap64_of_range (x : Int) (h0 : 0 ≤ x) (h1 : x < 9223372036854775808) :
    wrap64 x = x := by
  unfold wrap64
  simp only
  split <;> omega

theorem ceilTo_eq (v a : Int) (hv : 0 ≤ v) (ha : 0 < a)
    (hov : v + a - 1 < 9223372036854775808) : ceilTo v a = (v + a - 1) / a * a := by
  have hx : 0 ≤ v + a - 1 := by omega
  have hq : 0 ≤ (v + a - 1) / a := Int.ediv_nonneg hx (le_of_lt ha)
  have hle : (v + a - 1) / a * a ≤ v + a - 1 := Int.ediv_mul_le _ (ne_of_gt ha)
  have h0 : 0 ≤ (v + a - 1) / a * a := mul_nonneg hq (le_of_lt ha)
  unfold ceilTo
  rw [if_pos ha, wrap64_of_range _ hx hov, Int.tdiv_eq_ediv hx (le_of_lt ha),
    wrap64_of_range _ h0 (by omega)]

/-- The value ceilTo(v, a) is the least multiple of a that is >= v, when v >= 0, a > 0
and v + a - 1 does not overflow. -/
theorem ceilTo_least_multiple (v a : Int) (hv : 0 ≤ v) (ha : 0 < a)
    (hov : v + a - 1 < 9223372036854775808) :
    a ∣ ceilTo v a ∧ v ≤ ceilTo v a ∧ ceilTo v a < v + a ∧
    (∀ m : Int, a ∣ m → v ≤ m → ceilTo v a ≤ m) := by
  rw [ceilTo_eq v a hv ha hov]
  have hdiv := Int.emod_add_ediv (v + a - 1) a
  have hr0 := Int.emod_nonneg (v + a - 1) (ne_of_gt ha)
  have hr1 := Int.emod_lt_of_pos (v + a - 1) ha
  have hcomm : (v + a - 1) / a * a = a * ((v + a - 1) / a) := mul_comm _ _
  refine ⟨Dvd.intro_left _ rfl, by omega, by omega, ?_⟩
  intro m hm hvm
  obtain ⟨k, hk⟩ := hm
  have hlt : (v + a - 1) / a * a < (k + 1) * a := by
    have : (k + 1) * a = a * k + a := by ring
    omega
  have hq : (v + a - 1) / a < k + 1 := lt_of_mul_lt_mul_right hlt (le_of_lt ha)
  have hqk : (v + a - 1) / a ≤ k := by omega
  have := mul_le_mul_of_nonneg_right hqk (le_of_lt ha)
  have hka : k * a = a * k := mul_comm _ _
  omega

theorem askParams_valid (s : Session) (p : Params) (h : askParams s = .params p) :
    p.target ∈ (enumerate s.host s.entries).1 ∧ 0 < p.blockSize ∧ 0 ≤ p.devOffset ∧
    (p.limit = -1 ∨ 0 < p.limit) := by
  unfold askParams at h
  simp only at h
  split at h
  · cases h
  · split at h
    · cases h
    · split at h
      · cases h
      · rename_i target htarget
        split at h
        · cases h
        · split at h
          · cases h
          · split at h
            · cases h
            · split at h
              · cases h
              · rename_i hbs hoff hlim
                simp only [Asked.params.injEq] at h
                subst h
                simp only [Bool.or_eq_true, Bool.not_eq_true', decide_eq_true_eq, not_or,
                  Bool.and_eq_true, not_and, Bool.not_eq_false, not_le, not_lt] at hbs hoff hlim
                refine ⟨List.get?_mem htarget, hbs.2, hoff.2, ?_⟩
                cases hl : s.limLine with
                | empty => simp [NumLine.orDefault]
                | number v =>
                  simp only [hl, NumLine.isEmpty, NumLine.orDefault, forall_const] at hlim ⊢
                  right
                  have := hlim.2
                  omega
                | garbage =>
                  simp [hl, NumLine.isEmpty, NumLine.orDefault] at hlim


theorem runWrite_copy (s : Session) (p : Params) (sector tt bs sec : Int) (pad : Bool)
    (h : Call.copy tt bs sec pad ∈ (runWrite s p sector).calls) :
    tt = writeTargetBytes s.srcSize p.limit sector ∧ bs = p.blockSize ∧ sec = sector ∧
    pad = true := by
  unfold runWrite at h
  simp only at h
  repeat' split at h
  all_goals try simp at h
  all_goals exact h

theorem runRead_copy (s : Session) (p : Params) (sector tt bs sec : Int) (pad : Bool)
    (h : Call.copy tt bs sec pad ∈ (runRead s p sector).calls) :
    bs = p.blockSize ∧ sec = sector ∧ pad = false := by
  unfold runRead at h
  simp only at h
  repeat' split at h
  all_goals try simp at h
  all_goals exact h.2

theorem checkAndRun_copy (s : Session) (p : Params) (tt bs sec : Int) (pad : Bool)
    (h : Call.copy tt bs sec pad ∈ (checkAndRun s p).calls) :
    p.devOffset.tmod (sectorOf p.target) = 0 ∧ p.blockSize.tmod (sectorOf p.target) = 0 ∧
    bs = p.blockSize ∧ sec = sectorOf p.target ∧ pad = p.isWrite ∧
    (p.isWrite = true → tt = writeTargetBytes s.srcSize p.limit (sectorOf p.target)) := by
  unfold checkAndRun at h
  simp only at h
  split at h
  · simp at h
  · rename_i hoff
    split at h
    · simp at h
    · rename_i hbs
      simp only [ne_eq, not_not] at hoff hbs
      split at h
      · rename_i hw
        obtain ⟨h1, h2, h3, h4⟩ := runWrite_copy s p _ tt bs sec pad h
        exact ⟨hoff, hbs, h2, h3, by rw [h4, hw], fun _ => h1⟩
      · rename_i hw
        obtain ⟨h2, h3, h4⟩ := runRead_copy s p _ tt bs sec pad h
        refine ⟨hoff, hbs, h2, h3, ?_, fun hp => absurd hp hw⟩
        rw [h4]
        simpa using hw

theorem logicExec_copy (s : Session) (tt bs sec : Int) (pad : Bool)
    (h : Call.copy tt bs sec pad ∈ (logicExec s).calls) :
    ∃ p, askParams s = .params p ∧ Call.copy tt bs sec pad ∈ (checkAndRun s p).calls := by
  unfold logicExec at h
  split at h
  · rename_i r hr
    exfalso
    unfold askParams at hr
    simp only at hr
    repeat' split at hr
    all_goals first
      | (simp only [Asked.exit.injEq] at hr; subst hr; simp at h)
      | cases hr
  · rename_i p hp
    exact ⟨p, hp, h⟩


/-- C5. With sector = max(logicalSector of the selected device, 512): once the prompts
are answered validly (so the offset is >= 0 and the block size > 0), an offset or a
block size that is not a multiple of sector makes logicExec return 1 with a
misalignment diagnostic and without any call on a file or device (no openWrite, openRead,
seek or copyAlignedWithPadding). Conversely, whenever copyAlignedWithPadding is called,
the offset and the block size are multiples of the sector value passed to it. -/
theorem misaligned_request_rejected_before_device_access (s : Session) :
    (∀ p, askParams s = .params p →
      0 ≤ p.devOffset ∧ 0 < p.blockSize ∧
      ((¬ sectorOf p.target ∣ p.devOffset ∨ ¬ sectorOf p.target ∣ p.blockSize) →
        (logicExec s).code = 1 ∧ (logicExec s).calls = [] ∧
        ((logicExec s).err = [Diag.offsetMisaligned (sectorOf p.target) p.devOffset] ∨
         (logicExec s).err = [Diag.blockMisaligned (sectorOf p.target) p.blockSize]))) ∧
    (∀ (tt bs sec : Int) (pad : Bool), Call.copy tt bs sec pad ∈ (logicExec s).calls →
      ∃ p, askParams s = .params p ∧ sec = sectorOf p.target ∧ bs = p.blockSize ∧
        sec ∣ p.devOffset ∧ sec ∣ bs) := by
  constructor
  · intro p hp
    obtain ⟨_, hbs, hoff, _⟩ := askParams_valid s p hp
    refine ⟨hoff, hbs, ?_⟩
    intro hmis
    have hrun : logicExec s = checkAndRun s p := by simp only [logicExec, hp]
    rw [hrun]
    unfold checkAndRun
    simp only
    by_cases h1 : p.devOffset.tmod (sectorOf p.target) = 0
    · by_cases h2 : p.blockSize.tmod (sectorOf p.target) = 0
      · exfalso
        rcases hmis with h | h
        · exact h (Int.dvd_of_tmod_eq_zero h1)
        · exact h (Int.dvd_of_tmod_eq_zero h2)
      · simp [h1, h2]
    · simp [h1]
  · intro tt bs sec pad h
    obtain ⟨p, hp, hc⟩ := logicExec_copy s tt bs sec pad h
    obtain ⟨h1, h2, h3, h4, _⟩ := checkAndRun_copy s p tt bs sec pad hc
    refine ⟨p, hp, h4, h3, ?_, ?_⟩
    · rw [h4]
      exact Int.dvd_of_tmod_eq_zero h1
    · rw [h4, h3]
      exact Int.dvd_of_tmod_eq_zero h2

/-- Witness of C5: offset 100 on a device with sector 512 is rejected with the
misalignment diagnostic before any call; offset 0 leads to the copy. -/
theorem misaligned_request_rejected_before_device_access_witness :
    ¬ (512 : Int) ∣ 100 ∧
    (logicExec (sampleSession bareEnv (.number 100))).code = 1 ∧
    (logicExec (sampleSession bareEnv (.number 100))).calls = [] ∧
    (logicExec (sampleSession bareEnv (.number 100))).err = [Diag.offsetMisaligned 512 100] ∧
    (logicExec (sampleSession bareEnv .empty)).calls
      = [Call.openInput, Call.openWrite "/dev/sda".toList,
         Call.copy 1024 1048576 512 true] := by
  have h := ((misaligned_request_rejected_before_device_access
    (sampleSession bareEnv (.number 100))).1
      ⟨DiskInfo.mk "/dev/sda".toList "Unknown".toList 0 false 512 512, true, 1048576, 100, -1⟩
      (by decide)).2.2 (Or.inl (by decide))
  exact ⟨by decide, h.1, h.2.1, by decide, by decide⟩

theorem writeTarget_spec (base sector : Int) (hs : 0 < sector) (hb : 0 ≤ base)
    (hov : base + sector - 1 < 9223372036854775808) :
    0 < (if ceilTo base sector = 0 then sector else ceilTo base sector) ∧
    sector ∣ (if ceilTo base sector = 0 then sector else ceilTo base sector) ∧
    base ≤ (if ceilTo base sector = 0 then sector else ceilTo base sector) ∧
    (∀ m : Int, 0 < m → sector ∣ m → base ≤ m →
      (if ceilTo base sector = 0 then sector else ceilTo base sector) ≤ m) ∧
    (0 < base →
      (if ceilTo base sector = 0 then sector else ceilTo base sector) = ceilTo base sector ∧
      (if ceilTo base sector = 0 then sector else ceilTo base sector) < base + sector) ∧
    (base = 0 → (if ceilTo base sector = 0 then sector else ceilTo base sector) = sector) := by
  obtain ⟨hdvd, hle, hlt, hmin⟩ := ceilTo_least_multiple base sector hb hs hov
  by_cases hc : ceilTo base sector = 0
  · rw [if_pos hc]
    have hb0 : base = 0 := by omega
    refine ⟨hs, dvd_refl _, by omega, ?_, ?_, fun _ => rfl⟩
    · intro m hm hdm _
      exact Int.le_of_dvd hm hdm
    · intro hpos
      omega
  · rw [if_neg hc]
    refine ⟨by omega, hdvd, hle, fun m _ hdm hbm => hmin m hdm hbm, fun _ => ⟨rfl, hlt⟩, ?_⟩
    intro hb0
    exfalso
    have := hmin 0 (dvd_zero _) (by omega)
    omega

/-- C10. In write mode, for sector >= 512, srcSize >= 0 and a limit that is absent (-1)
or > 0, with base = srcSize without a limit and min(limit, srcSize) with one, and
base + sector - 1 < 2^63: the totalTarget passed to copyAlignedWithPadding is the
smallest positive multiple of sector that is >= base; it is ceilTo(base, sector) with
base <= totalTarget < base + sector when base > 0, and sector when base = 0; and
ceilTo(1000, 512) = 1024. -/
theorem write_target_is_least_positive_sector_multiple (sector srcSize limit : Int)
    (hs : 512 ≤ sector) (hz : 0 ≤ srcSize) (hl : limit = -1 ∨ 0 < limit)
    (hov : (if limit < 0 then srcSize else min limit srcSize) + sector - 1
      < 9223372036854775808) :
    (∀ (s : Session) (p : Params), askParams s = .params p → p.isWrite = true →
      s.srcSize = srcSize → p.limit = limit → sectorOf p.target = sector →
      ∀ (tt bs sec : Int) (pad : Bool), Call.copy tt bs sec pad ∈ (logicExec s).calls →
        tt = writeTargetBytes srcSize limit sector ∧ sec = sector ∧ pad = true) ∧
    (0 < writeTargetBytes srcSize limit sector ∧
      sector ∣ writeTargetBytes srcSize limit sector ∧
      (if limit < 0 then srcSize else min limit srcSize)
        ≤ writeTargetBytes srcSize limit sector ∧
      ∀ m : Int, 0 < m → sector ∣ m →
        (if limit < 0 then srcSize else min limit srcSize) ≤ m →
        writeTargetBytes srcSize limit sector ≤ m) ∧
    (0 < (if limit < 0 then srcSize else min limit srcSize) →
      writeTargetBytes srcSize limit sector
        = ceilTo (if limit < 0 then srcSize else min limit srcSize) sector ∧
      writeTargetBytes srcSize limit sector
        < (if limit < 0 then srcSize else min limit srcSize) + sector) ∧
    ((if limit < 0 then srcSize else min limit srcSize) = 0 →
      writeTargetBytes srcSize limit sector = sector) ∧
    ceilTo 1000 512 = 1024 := by
  have hbase : 0 ≤ (if limit < 0 then srcSize else min limit srcSize) := by
    rcases hl with h | h
    · rw [h]
      simpa using hz
    · rw [if_neg (by omega)]
      omega
  have hT : writeTargetBytes srcSize limit sector
      = if ceilTo (if limit < 0 then srcSize else min limit srcSize) sector = 0 then sector
        else ceilTo (if limit < 0 then srcSize else min limit srcSize) sector := rfl
  obtain ⟨h1, h2, h3, h4, h5, h6⟩ :=
    writeTarget_spec (if limit < 0 then srcSize else min limit srcSize) sector (by omega)
      hbase hov
  rw [← hT] at h1 h2 h3 h4 h5 h6
  refine ⟨?_, ⟨h1, h2, h3, h4⟩, h5, h6, by decide⟩
  intro s p hp hw hsz hlim hsec tt bs sec pad hcall
  obtain ⟨p2, hp2, hc⟩ := logicExec_copy s tt bs sec pad hcall
  rw [hp] at hp2
  injection hp2 with hpp
  subst hpp
  obtain ⟨_, _, _, hsec2, hpad, htt⟩ := checkAndRun_copy s p tt bs sec pad hc
  rw [hsz, hlim, hsec] at htt
  exact ⟨htt hw, by rw [hsec2, hsec], by rw [hpad, hw]⟩

/-- Witness of C10: a 1000-byte image on a 512-byte-sector device gives a target of
1024 bytes, and that is what the write run passes to the copy. -/
theorem write_target_is_least_positive_sector_multiple_witness :
    writeTargetBytes 1000 (-1) 512 = 1024 ∧
    (0 < writeTargetBytes 1000 (-1) 512 ∧ (512 : Int) ∣ writeTargetBytes 1000 (-1) 512 ∧
      (if (-1 : Int) < 0 then (1000 : Int) else min (-1) 1000)
        ≤ writeTargetBytes 1000 (-1) 512 ∧
      ∀ m : Int, 0 < m → (512 : Int) ∣ m →
        (if (-1 : Int) < 0 then (1000 : Int) else min (-1) 1000) ≤ m →
        writeTargetBytes 1000 (-1) 512 ≤ m) ∧
    (logicExec (sampleSession bareEnv .empty)).calls
      = [Call.openInput, Call.openWrite "/dev/sda".toList,
         Call.copy 1024 1048576 512 true] :=
  ⟨by decide, (write_target_is_least_positive_sector_multiple 512 1000 (-1) (by decide)
    (by decide) (Or.inl rfl) (by decide)).2.1, by decide⟩

/-! ## The driver: the target size in read mode -/

theorem floorTo_eq (v a : Int) (hv0 : 0 ≤ v) (hv1 : v < 9223372036854775808) (ha : 0 < a) :
    floorTo v a = v - v % a := by
  have hr0 := Int.emod_nonneg v (ne_of_gt ha)
  have hdiv := Int.emod_add_ediv v a
  have hq : 0 ≤ a * (v / a) := mul_nonneg (le_of_lt ha) (Int.ediv_nonneg hv0 (le_of_lt ha))
  unfold floorTo
  rw [if_pos ha, Int.tmod_eq_emod hv0 (le_of_lt ha), wrap64_of_range _ (by omega) (by omega)]

/-- The value floorTo(v, a) is the greatest multiple of a that is <= v, and it is 0
exactly when v < a, for 0 <= v < 2^63 and a > 0. -/
theorem floorTo_greatest_multiple (v a : Int) (hv0 : 0 ≤ v) (hv1 : v < 9223372036854775808)
    (ha : 0 < a) :
    a ∣ floorTo v a ∧ floorTo v a ≤ v ∧ v - a < floorTo v a ∧ 0 ≤ floorTo v a ∧
    (∀ m : Int, a ∣ m → m ≤ v → m ≤ floorTo v a) ∧
    (floorTo v a = 0 ↔ v < a) := by
  rw [floorTo_eq v a hv0 hv1 ha]
  have hr0 := Int.emod_nonneg v (ne_of_gt ha)
  have hr1 := Int.emod_lt_of_pos v ha
  have hdiv := Int.emod_add_ediv v a
  have hq : 0 ≤ a * (v / a) := mul_nonneg (le_of_lt ha) (Int.ediv_nonneg hv0 (le_of_lt ha))
  refine ⟨⟨v / a, by omega⟩, by omega, by omega, by omega, ?_, ?_⟩
  · intro m hm hmv
    obtain ⟨k, hk⟩ := hm
    have hlt : k * a < (v / a + 1) * a := by
      have e1 : k * a = a * k := mul_comm _ _
      have e2 : (v / a + 1) * a = a * (v / a) + a := by ring
      omega
    have hk1 : k < v / a + 1 := lt_of_mul_lt_mul_right hlt (le_of_lt ha)
    have hk2 : k ≤ v / a := by omega
    have := mul_le_mul_of_nonneg_left hk2 (le_of_lt ha)
    omega
  · constructor
    · intro h0
      omega
    · intro hlt
      rw [Int.emod_eq_of_lt hv0 hlt]
      omega

/-- What the read branch passes to the copy engine when a limit is given. -/
theorem runRead_copy_target (s : Session) (p : Params) (sector tt bs sec : Int) (pad : Bool)
    (hl : 0 < p.limit) (h : Call.copy tt bs sec pad ∈ (runRead s p sector).calls) :
    floorTo p.limit sector ≠ 0 ∧
    tt = (if floorTo p.limit sector > 0 then floorTo p.limit sector
          else 9223372036854775807) := by
  unfold runRead at h
  simp only at h
  repeat' split at h
  all_goals try simp at h
  all_goals simp_all
  all_goals split <;> omega

/-- The read branch once line 149 is reached with a limit: a floor of 0 is rejected
with return value 1 before the copy, any other floor goes to the copy. -/
theorem runRead_reached (s : Session) (p : Params) (sector : Int)
    (h1 : s.filePath.isEmpty = false) (h2 : s.conf = "yes".toList)
    (h3 : s.deviceOpens = true) (h4 : p.devOffset > 0 → s.seekOk = true)
    (h5 : s.outputOpens = true) (hl : 0 < p.limit) (hf : 0 ≤ floorTo p.limit sector) :
    (floorTo p.limit sector = 0 →
      (runRead s p sector).code = 1 ∧ (runRead s p sector).err = [Diag.limitBelowSector] ∧
      ∀ (tt bs sec : Int) (pad : Bool), Call.copy tt bs sec pad ∉ (runRead s p sector).calls) ∧
    (floorTo p.limit sector ≠ 0 →
      (runRead s p sector).code ≠ 1 ∧
      Call.copy (floorTo p.limit sector) p.blockSize sector false
        ∈ (runRead s p sector).calls) := by
  have hseek : (decide (p.devOffset > 0) && !s.seekOk) = false := by
    by_cases hpos : p.devOffset > 0
    · simp [h4 hpos]
    · simp [hpos]
  constructor
  · intro h0
    unfold runRead
    simp only [h1, h2, h3, h5, hseek, hl, h0]
    simp
  · intro h0
    have hpos : floorTo p.limit sector > 0 := by omega
    unfold runRead
    simp only [h1, h2, h3, h5, hseek, hl, h0, hpos]
    cases s.copyOk <;> simp [h0] <;> rw [if_pos hpos]


theorem checkAndRun_read (s : Session) (p : Params)
    (h1 : p.devOffset.tmod (sectorOf p.target) = 0)
    (h2 : p.blockSize.tmod (sectorOf p.target) = 0) (h3 : p.isWrite = false) :
    checkAndRun s p = runRead s p (sectorOf p.target) := by
  unfold checkAndRun
  simp [h1, h2, h3]

theorem checkAndRun_read_copy (s : Session) (p : Params) (tt bs sec : Int) (pad : Bool)
    (hr : p.isWrite = false) (h : Call.copy tt bs sec pad ∈ (checkAndRun s p).calls) :
    Call.copy tt bs sec pad ∈ (runRead s p (sectorOf p.target)).calls := by
  obtain ⟨h1, h2, _⟩ := checkAndRun_copy s p tt bs sec pad h
  rw [checkAndRun_read s p h1 h2 hr] at h
  exact h

/-- C11. In read mode, for sector >= 512 and a limit with 0 < limit < 2^63 (a qint64):
floorTo(limit, sector) is the largest multiple of sector that is <= limit, with
limit - sector < floorTo(limit, sector) <= limit, and floorTo(5000, 512) = 4608. Every
copy call of a read run has limit >= sector, totalTarget = floorTo(limit, sector) and
padUp = false. Once the read branch reaches the computation of the target, the run is
rejected (return value 1, no copy call) exactly when limit < sector, and otherwise the
copy is called with totalTarget = floorTo(limit, sector). With that totalTarget,
padUp = false and a device that yields only n <= totalTarget bytes before exhaustion
(n = 3000 for totalTarget = 4608), the output file receives exactly those n bytes. -/
theorem read_target_is_floor_to_sector {σ δ : Type} (sector limit : Int)
    (hs : 512 ≤ sector) (hl : 0 < limit) (hr : limit < 9223372036854775808)
    (S : Source σ) (D : Dest δ) (content : σ → List Byte)
    (hS : Chunked S content) (hD : Accepting D) :
    (sector ∣ floorTo limit sector ∧ floorTo limit sector ≤ limit ∧
      limit - sector < floorTo limit sector ∧
      ∀ m : Int, sector ∣ m → m ≤ limit → m ≤ floorTo limit sector) ∧
    floorTo 5000 512 = 4608 ∧
    (∀ (s : Session) (p : Params), askParams s = .params p → p.isWrite = false →
      p.limit = limit → sectorOf p.target = sector →
      (∀ (tt bs sec : Int) (pad : Bool), Call.copy tt bs sec pad ∈ (logicExec s).calls →
        sector ≤ limit ∧ tt = floorTo limit sector ∧ sec = sector ∧ pad = false) ∧
      (ReachesReadTarget s p →
        (((logicExec s).code = 1 ∧
            ∀ (tt bs sec : Int) (pad : Bool), Call.copy tt bs sec pad ∉ (logicExec s).calls)
          ↔ limit < sector) ∧
        (limit < sector → (logicExec s).err = [Diag.limitBelowSector]) ∧
        (sector ≤ limit →
          Call.copy (floorTo limit sector) p.blockSize sector false ∈ (logicExec s).calls))) ∧
    (∀ (src : σ) (dst : δ) (junk : List Byte) (blockSize sectorAlign : Int),
      0 < blockSize → blockSize < 2147483648 → sector ≤ limit →
      (content src).length ≤ (floorTo limit sector).toNat →
      ∀ fuel : Nat, (floorTo limit sector).toNat ≤ fuel →
      ∃ out, copyAlignedWithPadding fuel S D src dst junk (floorTo limit sector) blockSize
          sectorAlign false = some out ∧ out.ok = true ∧
        written out.trace = content src ∧
        (written out.trace).length = (content src).length) := by
  obtain ⟨hdvd, hle, hgt, h0le, hmax, hzero⟩ :=
    floorTo_greatest_multiple limit sector (le_of_lt hl) hr (by omega)
  refine ⟨⟨hdvd, hle, hgt, hmax⟩, by decide, ?_, ?_⟩
  · intro s p hp hread hlim hsec
    have hrun : logicExec s = checkAndRun s p := by simp only [logicExec, hp]
    have hlp : 0 < p.limit := by rw [hlim]; exact hl
    constructor
    · intro tt bs sec pad hcall
      rw [hrun] at hcall
      obtain ⟨_, _, _, hsec2, hpad, _⟩ := checkAndRun_copy s p tt bs sec pad hcall
      have hc := checkAndRun_read_copy s p tt bs sec pad hread hcall
      obtain ⟨hne, htt⟩ := runRead_copy_target s p _ tt bs sec pad hlp hc
      rw [hlim, hsec] at hne htt
      have hpos : floorTo limit sector > 0 := by omega
      rw [if_pos hpos] at htt
      refine ⟨?_, htt, by rw [hsec2, hsec], by rw [hpad, hread]⟩
      by_contra hlt
      exact hne (hzero.mpr (by omega))
    · intro hreach
      obtain ⟨ha1, ha2, _, hf, hc, hd, hk, ho⟩ := hreach
      rw [hrun, checkAndRun_read s p ha1 ha2 hread, hsec]
      obtain ⟨hrej, hacc⟩ := runRead_reached s p sector hf hc hd hk ho hlp
        (by rw [hlim]; exact h0le)
      rw [hlim] at hrej hacc
      refine ⟨⟨?_, ?_⟩, ?_, ?_⟩
      · rintro ⟨hcode, _⟩
        by_contra hge
        have hne : floorTo limit sector ≠ 0 := fun h => hge (hzero.mp h)
        exact (hacc hne).1 hcode
      · intro hlt
        obtain ⟨h1, _, h3⟩ := hrej (hzero.mpr hlt)
        exact ⟨h1, h3⟩
      · intro hlt
        exact (hrej (hzero.mpr hlt)).2.1
      · intro hge
        have hne : floorTo limit sector ≠ 0 := fun h => by
          have := hzero.mp h
          omega
        exact (hacc hne).2
  · intro src dst junk blockSize sectorAlign hB0 hB1 hge hlen fuel hfuel
    have hbs := bufferSize_of_range blockSize (by omega) hB1
    obtain ⟨st2, evs, hrunl, htr, _, _, hwr⟩ :=
      copyLoop_nopad S D content hS hD (bufferSize blockSize) (floorTo limit sector)
        (by omega) fuel (initialState src dst junk blockSize)
        (by simp only [initialState]; omega)
        (by rw [length_initialState_buf]) (by simp only [initialState]; omega)
    have hw : written (st2.trace ++ [Event.flush (D.flushToDisk st2.dst)]) = content src := by
      rw [written_append, htr, written_append, hwr]
      simp only [initialState, written, Event.appended, List.nil_append, List.append_nil,
        Int.sub_zero]
      exact List.take_of_length_le hlen
    refine ⟨Outcome.mk true st2.src st2.dst st2.done
      (st2.trace ++ [Event.flush (D.flushToDisk st2.dst)]),
      copyAligned_of_leave fuel S D src dst junk (floorTo limit sector) blockSize sectorAlign
        false st2 hrunl, rfl, hw, ?_⟩
    show (written (st2.trace ++ [Event.flush (D.flushToDisk st2.dst)])).length = _
    rw [hw]

/-- Witness of C11: limit 5000 on a 512-byte-sector device is floored to 4608, the read
run passes 4608 to the copy, a limit of 100 is rejected, and a device holding 3000
bytes fills the output file with exactly 3000 bytes. -/
theorem read_target_is_floor_to_sector_witness :
    floorTo 5000 512 = 4608 ∧
    (logicExec (sampleRun bareEnv "r" .empty (.number 5000))).calls
      = [Call.openRead "/dev/sda".toList, Call.openOutput,
         Call.copy 4608 1048576 512 false] ∧
    logicExec (sampleRun bareEnv "r" .empty (.number 100))
      = ⟨1, [Call.openRead "/dev/sda".toList, Call.openOutput], [Diag.limitBelowSector]⟩ ∧
    (∃ out, copyAlignedWithPadding 4608 fileSource (steadyDest 4096 true)
        (FileSrc.mk (List.replicate 3000 7) [1000]) 0 [] (floorTo 5000 512) 1048576 512 false
        = some out ∧ out.ok = true ∧ (written out.trace).length = 3000) := by
  have h := (read_target_is_floor_to_sector 512 5000 (by decide) (by decide) (by decide)
    fileSource (steadyDest 4096 true) FileSrc.rest fileSource_chunked
    (steadyDest_accepting 4096 true)).2.2.2 (FileSrc.mk (List.replicate 3000 7) [1000]) 0 []
    1048576 512 (by decide) (by decide) (by decide)
    (by
      have e : floorTo 5000 512 = 4608 := by decide
      rw [e]
      show (List.replicate 3000 (7 : Byte)).length ≤ (4608 : Int).toNat
      rw [List.length_replicate]
      decide)
    4608
    (by
      have e : floorTo 5000 512 = 4608 := by decide
      rw [e]
      decide)
  obtain ⟨out, h1, h2, _, h4⟩ := h
  refine ⟨by decide, by decide, by decide, out, h1, h2, ?_⟩
  rw [h4]
  exact List.length_replicate _ _


/-! ## The copy engine: termination -/

/-- The inner write loop never runs out of the fuel it is given: every pass either
returns or advances off by at least one byte. -/
theorem writeLoop_isSome {δ : Type} (D : Dest δ) (buf : List Byte) (n : Int) :
    ∀ (fuel : Nat) (off : Int) (dst : δ), (n - off).toNat ≤ fuel →
      (writeLoop D buf n fuel off dst).isSome = true := by
  intro fuel
  induction fuel with
  | zero =>
    intro off dst hf
    have hno : ¬ off < n := by omega
    simp [writeLoop, hno]
  | succ fuel ih =>
    intro off dst hf
    by_cases hlt : off < n
    · by_cases hwr : (D.write dst (slice buf off (n - off))).1 ≤ 0
      · simp [writeLoop, hlt, hwr]
      · have hrec := ih (off + (D.write dst (slice buf off (n - off))).1)
          (D.write dst (slice buf off (n - off))).2 (by omega)
        obtain ⟨r, hr⟩ := Option.isSome_iff_exists.mp hrec
        simp [writeLoop, hlt, hwr, hr]
    · simp [writeLoop, hlt]

theorem afterWrites_isSome {σ δ : Type} (D : Dest δ) (st : CopyState σ δ) (src2 : σ)
    (ev : Event) (b : List Byte) (n inc : Int) :
    (afterWrites D st src2 ev b n inc).isSome = true := by
  obtain ⟨r, hr⟩ := Option.isSome_iff_exists.mp
    (writeLoop_isSome D b n n.toNat 0 st.dst (by omega))
  obtain ⟨ok, d, evs⟩ := r
  cases ok <;> simp [afterWrites, hr]

/-- One pass through the body of the outer loop always ends. -/
theorem iteration_isSome {σ δ : Type} (S : Source σ) (D : Dest δ) (bufSize totalTarget : Int)
    (padUp : Bool) (st : CopyState σ δ) :
    (iteration S D bufSize totalTarget padUp st).isSome = true := by
  unfold iteration
  simp only
  split
  · rfl
  · split
    · split
      · exact afterWrites_isSome D st _ _ _ _ _
      · rfl
    · split
      · exact afterWrites_isSome D st _ _ _ _ _
      · exact afterWrites_isSome D st _ _ _ _ _

/-- With a buffer of at least one byte the outer loop ends within totalTarget - done
passes, for every source and destination: each pass returns, leaves the loop or
advances done by at least one. -/
theorem copyLoop_isSome {σ δ : Type} (S : Source σ) (D : Dest δ) (bufSize totalTarget : Int)
    (padUp : Bool) (hb : 0 < bufSize) :
    ∀ (fuel : Nat) (st : CopyState σ δ), (totalTarget - st.done).toNat ≤ fuel →
      (copyLoop S D bufSize totalTarget padUp fuel st).isSome = true := by
  intro fuel
  induction fuel with
  | zero =>
    intro st hf
    have hno : ¬ st.done < totalTarget := by omega
    simp [copyLoop, hno]
  | succ fuel ih =>
    intro st hf
    by_cases hlt : st.done < totalTarget
    · obtain ⟨step, hit⟩ := Option.isSome_iff_exists.mp
        (iteration_isSome S D bufSize totalTarget padUp st)
      obtain ⟨evs, _, _, hc⟩ := iteration_cases S D bufSize totalTarget padUp st step hit
      rcases hc with ⟨st2, hs, _, hd⟩ | ⟨st2, hs, _⟩ | ⟨st2, hs, _⟩
      · subst hs
        have hadv : st.done < st2.done := by
          rcases hd with ⟨hd, _, _⟩ | ⟨hd, hpos⟩ <;> omega
        have hrec := ih st2 (by omega)
        simp only [copyLoop, hlt, if_true, hit]
        exact hrec
      · subst hs
        simp [copyLoop, hlt, hit]
      · subst hs
        simp [copyLoop, hlt, hit]
    · simp [copyLoop, hlt]

/-- With a buffer of 0 bytes, padUp = true and a source that answers a read of 0 bytes
with 0, the outer loop never ends: every pass asks for 0 bytes, writes nothing and
leaves done where it was. -/
theorem copyLoop_stuck {σ δ : Type} (S : Source σ) (D : Dest δ) (totalTarget : Int)
    (hS : ∀ st : σ, (S.read st 0).1 = .got []) :
    ∀ (fuel : Nat) (st : CopyState σ δ), st.done < totalTarget →
      copyLoop S D 0 totalTarget true fuel st = none := by
  intro fuel
  induction fuel with
  | zero =>
    intro st hlt
    simp [copyLoop, hlt]
  | succ fuel ih =>
    intro st hlt
    have hw : min (0 : Int) (totalTarget - st.done) = 0 := by omega
    have hit : iteration S D 0 totalTarget true st
        = some (.next (CopyState.mk (S.read st.src 0).2 st.dst
            (memset (store st.buf []) 0 (toInt32 0).toNat) (st.done + 0)
            (st.trace ++ [Event.read 0 0]))) := by
      simp [iteration, hw, hS st.src, ReadResult.rd, ReadResult.bytes, afterWrites, writeLoop]
    simp only [copyLoop, hlt, if_true, hit]
    exact ih _ (by simpa using hlt)

/-- C12 fails on the code. A block size of 4294967296 passes the validation of
logicExec (it is > 0 and a multiple of the sector 512) and reaches the copy in write
mode; int(4294967296) is 0, so the buffer has 0 bytes; one pass of the loop body asks
the source for 0 bytes, writes nothing and ends with done still 0; and the call does
not finish, whatever number of passes it is given. -/
theorem copy_never_finishes_with_zero_length_buffer :
    (logicExec (sampleRun bareEnv "w" (.number 4294967296) .empty)).calls
      = [Call.openInput, Call.openWrite "/dev/sda".toList,
         Call.copy 1024 4294967296 512 true] ∧
    (0 : Int) < 4294967296 ∧ (512 : Int) ∣ 4294967296 ∧
    toInt32 4294967296 = 0 ∧ bufferSize 4294967296 = 0 ∧
    (iteration plainSource (steadyDest 1 true) (bufferSize 4294967296) 1024 true
        (initialState [1, 2, 3] 0 [] 4294967296)).map
      (fun step => (step.state.done, step.state.trace)) = some (0, [Event.read 0 0]) ∧
    ∀ fuel : Nat,
      copyAlignedWithPadding fuel plainSource (steadyDest 1 true) [1, 2, 3] 0 []
        1024 4294967296 512 true = none := by
  refine ⟨by decide, by decide, by decide, by decide, by decide, by decide, ?_⟩
  intro fuel
  have hb : bufferSize 4294967296 = 0 := by decide
  have hstuck := copyLoop_stuck plainSource (steadyDest 1 true) 1024 (fun _ => rfl) fuel
    (initialState [1, 2, 3] 0 [] 4294967296) (by decide)
  simp only [copyAlignedWithPadding, hb, hstuck]

end SectorClone
